import Mathlib

/-!
Verification of the sandworm build engine (src/sandworm).

Shallow embedding conventions:

* A build graph is the quotient of the Python `Target` object graph by
  `Target.__eq__` (type + fullname); nodes are natural numbers.  The spec's
  data model declares names unique per concrete type, so each node carries
  the attributes of the unique target of that equality class:
  - `deps i`   : the `dependencies` list (node indices), order preserved;
  - `builder i`: `none` for a null builder, `some r` for a user builder whose
    invocation returns `r` (an exception that is caught and logged is the
    same observable as returning `False`, so `r : Bool` suffices);
  - `exi i`    : the cached `exists` property (always `false` for a plain
    `Target`, the filesystem answer for a `FileTarget`);
  - `lm i`     : the cached `last_modified` property (`none` for plain
    targets and absent files, `some mtime` otherwise).

* Python `Target` objects are created bottom-up (a `dependencies` list only
  holds already-constructed targets), so an object graph always admits a
  numbering in which every dependency has a strictly smaller index.  The
  predicate `DAGOk` captures exactly those graphs; claims about the build
  phase (which runs after the cycle check) assume it.  The cycle detector
  itself is modelled on arbitrary graphs (`Closed`), since equality-cycles
  such as the one in `test_fail_cyclic_dependency` are representable there.

* Recursive descents over the graph (`out_of_date`, `_linearize_recurse`,
  `populate_job_pre_map`, dict/`popOrder` insertion) are written with an
  explicit fuel argument so that every definition is structurally recursive
  and executable; on `DAGOk` graphs fuel `i + 1` is always sufficient for a
  descent rooted at node `i`, which the canonical wrappers use.
-/

/-- A build graph: the `Target` object graph of `src/sandworm/target.py`,
quotiented by target equality.  See the header comment for the reading of
each field. -/
structure BuildGraph where
  deps : Nat → List Nat
  builder : Nat → Option Bool
  exi : Nat → Bool
  lm : Nat → Option Int

/-- Graphs whose dependency edges always point to strictly smaller indices:
the numberings that bottom-up `Target` construction produces.  Build-phase
claims (everything that runs after the cycle check) assume this. -/
def DAGOk (g : BuildGraph) : Prop :=
  ∀ i j, j ∈ g.deps i → j < i

/-- All edges out of nodes below `n` stay below `n`: the closedness needed to
bound the cycle detector's work on a general (possibly cyclic) graph. -/
def Closed (g : BuildGraph) (n : Nat) : Prop :=
  ∀ i j, i < n → j ∈ g.deps i → j < n

/-- Helper to build `deps` functions from a finite table (row `i` lists the
dependency indices of node `i`; absent rows mean no dependencies). -/
def mkDeps (table : List (List Nat)) : Nat → List Nat :=
  fun i => (table.get? i).getD []

/-- Boolean check that a deps table is lower-triangular, so that concrete
witness graphs can discharge `DAGOk` by `decide`. -/
def dagOkTable (table : List (List Nat)) : Bool :=
  (List.range table.length).all fun i => ((mkDeps table) i).all fun j => j < i

theorem dagOkTable_sound (table : List (List Nat)) (h : dagOkTable table = true) :
    DAGOk { deps := mkDeps table, builder := b, exi := e, lm := l } := by
  intro i j hj
  simp only [dagOkTable, List.all_eq_true, List.mem_range] at h
  by_cases hi : i < table.length
  · have := h i hi
    simp only [List.all_eq_true, decide_eq_true_eq] at this
    exact this j hj
  · exfalso
    simp only [mkDeps] at hj
    rw [List.get?_eq_none.mpr (by omega)] at hj
    simp at hj

theorem dagOk_closed {g : BuildGraph} (hg : DAGOk g) (n : Nat) : Closed g n :=
  fun i j hi hj => lt_trans (hg i j hj) hi

/-! ## Staleness: `Target.out_of_date` (src/sandworm/target.py lines 112-129)

`out_of_date` is true iff the target does not exist, or some dependency is
out of date, or some dependency has a defined `last_modified` strictly newer
than the target's own defined `last_modified`.  It is a memoized pure
property, so a pure function models it exactly. -/

/-- Fuelled form of `Target.out_of_date`.  Mirrors target.py lines 112-129:
`if not self.exists: return True`, then the dependency loop. -/
def oodF (g : BuildGraph) : Nat → Nat → Bool
  | 0, _ => false
  | fuel + 1, i =>
    if !g.exi i then true
    else (g.deps i).any fun d =>
      oodF g fuel d ||
        (match g.lm i, g.lm d with
          | some a, some b => decide (a < b)
          | _, _ => false)

/-- `Target.out_of_date` on `DAGOk` graphs (fuel `i + 1` always suffices
there, by `oodF_irrel`). -/
def outOfDate (g : BuildGraph) (i : Nat) : Bool :=
  oodF g (i + 1) i

theorem anyCongr {α : Type} (l : List α) (f₁ f₂ : α → Bool)
    (h : ∀ a ∈ l, f₁ a = f₂ a) : l.any f₁ = l.any f₂ := by
  induction l with
  | nil => rfl
  | cons a t ih =>
    simp only [List.any_cons, h a (by simp),
      ih fun x hx => h x (List.mem_cons_of_mem a hx)]

theorem foldlCongr {α β : Type} (l : List α) (f₁ f₂ : β → α → β) (b : β)
    (h : ∀ x a, a ∈ l → f₁ x a = f₂ x a) : l.foldl f₁ b = l.foldl f₂ b := by
  induction l generalizing b with
  | nil => rfl
  | cons a t ih =>
    simp only [List.foldl_cons, h b a (by simp)]
    exact ih _ fun x a' ha' => h x a' (List.mem_cons_of_mem a ha')

theorem oodF_irrel {g : BuildGraph} (hg : DAGOk g) :
    ∀ f₁ f₂ i, i < f₁ → i < f₂ → oodF g f₁ i = oodF g f₂ i := by
  intro f₁
  induction f₁ with
  | zero => intro f₂ i h; omega
  | succ f ih =>
    intro f₂ i h₁ h₂
    cases f₂ with
    | zero => omega
    | succ f₂ =>
      simp only [oodF]
      refine congrArg _ (anyCongr _ _ _ fun d hd => ?_)
      rw [ih f₂ d (by have := hg i d hd; omega) (by have := hg i d hd; omega)]

theorem outOfDate_unfold {g : BuildGraph} (hg : DAGOk g) (i : Nat) :
    outOfDate g i =
      (if !g.exi i then true
       else (g.deps i).any fun d =>
         outOfDate g d ||
           (match g.lm i, g.lm d with
             | some a, some b => decide (a < b)
             | _, _ => false)) := by
  show oodF g (i + 1) i = _
  simp only [oodF]
  refine congrArg _ (anyCongr _ _ _ fun d hd => ?_)
  rw [oodF_irrel hg i (d + 1) d (hg i d hd) (by omega)]
  rfl

/-- A node that is not out of date: all its dependencies are also not out of
date (target.py line 119: any stale dependency makes the parent stale). -/
theorem outOfDate_dep {g : BuildGraph} (hg : DAGOk g) {i d : Nat}
    (hd : d ∈ g.deps i) (h : outOfDate g i = false) : outOfDate g d = false := by
  rw [outOfDate_unfold hg] at h
  rcases Bool.eq_false_or_eq_true (g.exi i) with he | he <;> simp [he] at h
  exact (h d hd).1

/-! ## `Target.build` (src/sandworm/target.py lines 74-102), for claim C6.

The observables of one `build()` call: the returned boolean, the `built`
flag afterwards, whether the chdir machinery ran (`os.chdir` is executed
only on the builder path and only when the current directory differs from
`env.basedir`), and whether the "No rule to build X" error was logged. -/

structure TState where
  builder : Option Bool
  exi : Bool
  depsEmpty : Bool
  built : Bool
deriving DecidableEq

structure BuildRes where
  ret : Bool
  built : Bool
  chdirUsed : Bool
  loggedNoRule : Bool
deriving DecidableEq

/-- `Target.build` (target.py lines 74-102).  `cwdDiffers` is the value of
`pathlib.Path.cwd() != self.env.basedir` at call time. -/
def targetBuild (cwdDiffers : Bool) (t : TState) : BuildRes :=
  match t.builder with
  | none =>
    if t.exi || !t.depsEmpty then
      { ret := true, built := t.built, chdirUsed := false, loggedNoRule := false }
    else
      { ret := false, built := t.built, chdirUsed := false, loggedNoRule := true }
  | some r =>
    { ret := r, built := t.built || r, chdirUsed := cwdDiffers, loggedNoRule := false }

/-- The success value of building node `i` of a graph, as the serial runner
observes it (`targ.build()` in core.py line 79): the builder's result when
there is one, otherwise `exists or dependencies`. -/
def buildNode (g : BuildGraph) (i : Nat) : Bool :=
  match g.builder i with
  | some r => r
  | none => g.exi i || !(g.deps i).isEmpty

theorem buildNode_eq_targetBuild (g : BuildGraph) (i : Nat) (c b : Bool) :
    buildNode g i =
      (targetBuild c
        { builder := g.builder i, exi := g.exi i,
          depsEmpty := (g.deps i).isEmpty, built := b }).ret := by
  cases h : g.builder i <;> simp [buildNode, targetBuild, h] <;> split <;> simp_all

/-- C6: For every target whose builder is None, `Target.build()` returns true
iff the target exists or its dependencies list is non-empty; otherwise it
logs the "no rule" error and returns false; and in neither case is the
builder machinery (chdir, built flag) engaged. -/
theorem c6_null_builder_build (cwdDiffers : Bool) (t : TState)
    (h : t.builder = none) :
    (targetBuild cwdDiffers t).ret = (t.exi || !t.depsEmpty) ∧
    (targetBuild cwdDiffers t).loggedNoRule = !(t.exi || !t.depsEmpty) ∧
    (targetBuild cwdDiffers t).built = t.built ∧
    (targetBuild cwdDiffers t).chdirUsed = false := by
  simp only [targetBuild, h]
  rcases Bool.eq_false_or_eq_true (t.exi || !t.depsEmpty) with hc | hc
  · simp [hc]
  · simp [hc]

theorem c6_null_builder_build_witness :
    ({ builder := none, exi := false, depsEmpty := true, built := false } : TState).builder
        = none ∧
    ((targetBuild true
        { builder := none, exi := false, depsEmpty := true, built := false }).ret
      = (false || !true) ∧
    (targetBuild true
        { builder := none, exi := false, depsEmpty := true, built := false }).loggedNoRule
      = !(false || !true) ∧
    (targetBuild true
        { builder := none, exi := false, depsEmpty := true, built := false }).built
      = false ∧
    (targetBuild true
        { builder := none, exi := false, depsEmpty := true, built := false }).chdirUsed
      = false) :=
  ⟨rfl, c6_null_builder_build true
    { builder := none, exi := false, depsEmpty := true, built := false } rfl⟩

/-! ## Reachability in the dependency graph -/

/-- `Reach g i j`: target `j` is `i` itself or a (transitive) dependency of
`i`. -/
inductive Reach (g : BuildGraph) : Nat → Nat → Prop
  | refl (i : Nat) : Reach g i i
  | step {i d j : Nat} : d ∈ g.deps i → Reach g d j → Reach g i j

theorem Reach.trans {g : BuildGraph} {i j k : Nat}
    (h₁ : Reach g i j) (h₂ : Reach g j k) : Reach g i k := by
  induction h₁ with
  | refl => exact h₂
  | step hd _ ih => exact Reach.step hd (ih h₂)

theorem reach_le {g : BuildGraph} (hg : DAGOk g) {i j : Nat}
    (h : Reach g i j) : j ≤ i := by
  induction h with
  | refl => exact le_refl _
  | step hd _ ih => exact le_trans ih (le_of_lt (hg _ _ hd))

/-! ## Memoized DFS insertion order

`populate_job_pre_map` (_parallel.py lines 153-188) visits each target once
(memoized through the `job_pre_map` dict), descending into dependencies
before inserting the target itself, so `job_pre_map.items()` enumerates the
reachable targets in post-order of first completion.  `popOrderF` computes
that insertion order; the `vis` accumulator is the list of dict keys so
far. -/

def popOrderF (g : BuildGraph) : Nat → Nat → List Nat → List Nat
  | 0, _, vis => vis
  | fuel + 1, i, vis =>
    if i ∈ vis then vis
    else ((g.deps i).foldl (fun v d => popOrderF g fuel d v) vis) ++ [i]

/-- The insertion order of `job_pre_map` for a build rooted at `main`. -/
def popOrder (g : BuildGraph) (main : Nat) : List Nat :=
  popOrderF g (main + 1) main []

theorem popOrderF_extend (g : BuildGraph) :
    ∀ fuel i vis, ∃ Δ, popOrderF g fuel i vis = vis ++ Δ := by
  intro fuel
  induction fuel with
  | zero => exact fun i vis => ⟨[], (List.append_nil vis).symm⟩
  | succ f ih =>
    intro i vis
    simp only [popOrderF]
    by_cases hv : i ∈ vis
    · exact ⟨[], by simp [hv]⟩
    · simp only [hv, if_false]
      have hfold : ∀ (l : List Nat) (v : List Nat),
          ∃ Δ, l.foldl (fun v d => popOrderF g f d v) v = v ++ Δ := by
        intro l
        induction l with
        | nil => exact fun v => ⟨[], (List.append_nil v).symm⟩
        | cons a t iht =>
          intro v
          simp only [List.foldl_cons]
          obtain ⟨Δ₁, h₁⟩ := ih a v
          obtain ⟨Δ₂, h₂⟩ := iht (popOrderF g f a v)
          exact ⟨Δ₁ ++ Δ₂, by rw [h₂, h₁, List.append_assoc]⟩
      obtain ⟨Δ, h⟩ := hfold (g.deps i) vis
      exact ⟨Δ ++ [i], by rw [h, List.append_assoc]⟩

theorem popFoldExtend (g : BuildGraph) (f : Nat) :
    ∀ (l : List Nat) (v : List Nat),
      ∃ Δ, l.foldl (fun v d => popOrderF g f d v) v = v ++ Δ := by
  intro l
  induction l with
  | nil => exact fun v => ⟨[], (List.append_nil v).symm⟩
  | cons a t iht =>
    intro v
    simp only [List.foldl_cons]
    obtain ⟨Δ₁, h₁⟩ := popOrderF_extend g f a v
    obtain ⟨Δ₂, h₂⟩ := iht (popOrderF g f a v)
    exact ⟨Δ₁ ++ Δ₂, by rw [h₂, h₁, List.append_assoc]⟩

theorem popFold_mem_mono {g : BuildGraph} {f : Nat} {l v : List Nat} {x : Nat}
    (h : x ∈ v) : x ∈ l.foldl (fun v d => popOrderF g f d v) v := by
  obtain ⟨Δ, hΔ⟩ := popFoldExtend g f l v
  rw [hΔ]; exact List.mem_append_left _ h

theorem popOrderF_mem_mono {g : BuildGraph} {fuel i : Nat} {vis : List Nat}
    {x : Nat} (h : x ∈ vis) : x ∈ popOrderF g fuel i vis := by
  obtain ⟨Δ, hΔ⟩ := popOrderF_extend g fuel i vis
  rw [hΔ]; exact List.mem_append_left _ h

theorem popOrderF_self_mem (g : BuildGraph) (f i : Nat) (vis : List Nat) :
    i ∈ popOrderF g (f + 1) i vis := by
  simp only [popOrderF]
  by_cases hv : i ∈ vis
  · simp [hv]
  · simp only [hv, if_false]
    exact List.mem_append_right _ (by simp)

/-- The visited set is closed under dependencies: once the pre-pass has
inserted a target, all its dependencies were inserted first. -/
def VisClosed (g : BuildGraph) (vis : List Nat) : Prop :=
  ∀ v ∈ vis, ∀ d ∈ g.deps v, d ∈ vis

theorem visClosed_reach {g : BuildGraph} {vis : List Nat}
    (hc : VisClosed g vis) {i x : Nat} (hi : i ∈ vis) (hr : Reach g i x) :
    x ∈ vis := by
  induction hr with
  | refl => exact hi
  | step hd _ ih => exact ih (hc _ hi _ hd)

theorem popOrderF_sound {g : BuildGraph} (hg : DAGOk g) :
    ∀ fuel i vis x, i < fuel → x ∈ popOrderF g fuel i vis →
      x ∈ vis ∨ Reach g i x := by
  intro fuel
  induction fuel with
  | zero => intro i vis x h; omega
  | succ f ih =>
    intro i vis x hf hx
    simp only [popOrderF] at hx
    by_cases hv : i ∈ vis
    · simp only [hv, if_true] at hx; exact Or.inl hx
    · simp only [hv, if_false] at hx
      rcases List.mem_append.mp hx with hx' | hx'
      · -- came from the dependency fold
        have hfold : ∀ (l : List Nat) (v : List Nat),
            (∀ d ∈ l, d ∈ g.deps i) →
            x ∈ l.foldl (fun v d => popOrderF g f d v) v →
            x ∈ v ∨ Reach g i x := by
          intro l
          induction l with
          | nil => exact fun v _ h => Or.inl h
          | cons a t iht =>
            intro v hsub h
            simp only [List.foldl_cons] at h
            rcases iht (popOrderF g f a v)
                (fun d hd => hsub d (List.mem_cons_of_mem a hd)) h with h' | h'
            · rcases ih a v x (by have := hg i a (hsub a (by simp)); omega) h' with
                h'' | h''
              · exact Or.inl h''
              · exact Or.inr (Reach.step (hsub a (by simp)) h'')
            · exact Or.inr h'
        exact hfold (g.deps i) vis (fun d hd => hd) hx'
      · simp only [List.mem_singleton] at hx'
        subst hx'
        exact Or.inr (Reach.refl x)

theorem popOrderF_closed {g : BuildGraph} (hg : DAGOk g) :
    ∀ fuel i vis, i < fuel → VisClosed g vis →
      VisClosed g (popOrderF g fuel i vis) := by
  intro fuel
  induction fuel with
  | zero => intro i vis h; omega
  | succ f ih =>
    intro i vis hf hc
    simp only [popOrderF]
    by_cases hv : i ∈ vis
    · simpa [hv] using hc
    · simp only [hv, if_false]
      have hfold : ∀ (l : List Nat) (v : List Nat),
          (∀ d ∈ l, d < f) → VisClosed g v →
          VisClosed g (l.foldl (fun v d => popOrderF g f d v) v) ∧
            (∀ d ∈ l, d ∈ l.foldl (fun v d => popOrderF g f d v) v) := by
        intro l
        induction l with
        | nil => exact fun v _ h => ⟨h, by simp⟩
        | cons a t iht =>
          intro v hsub hcl
          have ha : a < f := hsub a (by simp)
          have h₁ := ih a v ha hcl
          obtain ⟨h₂, h₃⟩ := iht (popOrderF g f a v)
            (fun d hd => hsub d (List.mem_cons_of_mem a hd)) h₁
          refine ⟨h₂, fun d hd => ?_⟩
          rcases List.mem_cons.mp hd with rfl | hd'
          · have hself : d ∈ popOrderF g f d v := by
              cases f with
              | zero => omega
              | succ f' => exact popOrderF_self_mem g f' d v
            simpa only [List.foldl_cons] using popFold_mem_mono hself
          · simpa only [List.foldl_cons] using h₃ d hd'
      have hsub : ∀ d ∈ g.deps i, d < f := fun d hd => by
        have := hg i d hd; omega
      obtain ⟨h₂, h₃⟩ := hfold (g.deps i) vis hsub hc
      intro v hvm d hdm
      rcases List.mem_append.mp hvm with hv' | hv'
      · exact List.mem_append_left _ (h₂ v hv' d hdm)
      · simp only [List.mem_singleton] at hv'
        subst hv'
        exact List.mem_append_left _ (h₃ d hdm)

theorem popFold_sound {g : BuildGraph} (hg : DAGOk g) (f : Nat) :
    ∀ (l : List Nat) (v : List Nat) (x : Nat),
      (∀ e ∈ l, e < f) →
      x ∈ l.foldl (fun v e => popOrderF g f e v) v →
      x ∈ v ∨ ∃ d ∈ l, Reach g d x := by
  intro l
  induction l with
  | nil => exact fun v x _ h => Or.inl h
  | cons a t iht =>
    intro v x hsub h
    simp only [List.foldl_cons] at h
    rcases iht (popOrderF g f a v) x
        (fun e he => hsub e (List.mem_cons_of_mem a he)) h with h' | h'
    · rcases popOrderF_sound hg f a v x (hsub a (by simp)) h' with h'' | h''
      · exact Or.inl h''
      · exact Or.inr ⟨a, by simp, h''⟩
    · obtain ⟨d, hd, hr⟩ := h'
      exact Or.inr ⟨d, List.mem_cons_of_mem a hd, hr⟩

theorem popOrderF_complete {g : BuildGraph} (hg : DAGOk g) :
    ∀ fuel i vis x, i < fuel → VisClosed g vis → Reach g i x →
      x ∈ popOrderF g fuel i vis := by
  intro fuel
  induction fuel with
  | zero => intro i vis x h; omega
  | succ f ih =>
    intro i vis x hf hc hr
    simp only [popOrderF]
    by_cases hv : i ∈ vis
    · simp only [hv, if_true]
      exact visClosed_reach hc hv hr
    · simp only [hv, if_false]
      cases hr with
      | refl => exact List.mem_append_right _ (by simp)
      | step hd hr' =>
        rename_i d
        refine List.mem_append_left _ ?_
        have hfold : ∀ (l : List Nat) (v : List Nat),
            (∀ e ∈ l, e < f) → VisClosed g v → d ∈ l →
            x ∈ l.foldl (fun v e => popOrderF g f e v) v := by
          intro l
          induction l with
          | nil => intro v _ _ h; simp at h
          | cons a t iht =>
            intro v hsub hcl hdl
            simp only [List.foldl_cons]
            rcases List.mem_cons.mp hdl with rfl | hd'
            · exact popFold_mem_mono (ih d v x (hsub d (by simp)) hcl hr')
            · exact iht (popOrderF g f a v)
                (fun e he => hsub e (List.mem_cons_of_mem a he))
                (popOrderF_closed hg f a v (hsub a (by simp)) hcl) hd'
        exact hfold (g.deps i) vis
          (fun e he => by have := hg i e he; omega) hc hd

theorem mem_popOrder {g : BuildGraph} (hg : DAGOk g) (m x : Nat) :
    x ∈ popOrder g m ↔ Reach g m x := by
  constructor
  · intro h
    rcases popOrderF_sound hg (m + 1) m [] x (by omega) h with h' | h'
    · simp at h'
    · exact h'
  · intro h
    exact popOrderF_complete hg (m + 1) m [] x (by omega)
      (fun v hv => by simp at hv) h

theorem popOrderF_nodup {g : BuildGraph} (hg : DAGOk g) :
    ∀ fuel i vis, i < fuel → vis.Nodup → (popOrderF g fuel i vis).Nodup := by
  intro fuel
  induction fuel with
  | zero => intro i vis h; omega
  | succ f ih =>
    intro i vis hf hn
    simp only [popOrderF]
    by_cases hv : i ∈ vis
    · simpa [hv] using hn
    · simp only [hv, if_false]
      have hsub : ∀ e ∈ g.deps i, e < f := fun e he => by
        have := hg i e he; omega
      have hfold : ∀ (l : List Nat) (v : List Nat),
          (∀ e ∈ l, e < f) → v.Nodup →
          (l.foldl (fun v e => popOrderF g f e v) v).Nodup := by
        intro l
        induction l with
        | nil => exact fun v _ h => h
        | cons a t iht =>
          intro v hsubl hnv
          simp only [List.foldl_cons]
          exact iht (popOrderF g f a v)
            (fun e he => hsubl e (List.mem_cons_of_mem a he))
            (ih a v (hsubl a (by simp)) hnv)
      have hmem : ∀ x, x ∈ (g.deps i).foldl (fun v e => popOrderF g f e v) vis →
          x ∈ vis ∨ x < i := by
        intro x hx
        rcases popFold_sound hg f (g.deps i) vis x hsub hx with h' | h'
        · exact Or.inl h'
        · obtain ⟨d, hd, hr⟩ := h'
          exact Or.inr (lt_of_le_of_lt (reach_le hg hr) (hg i d hd))
      rw [List.nodup_append]
      refine ⟨hfold (g.deps i) vis hsub hn, by simp, ?_⟩
      intro x hx hxi
      simp only [List.mem_singleton] at hxi
      subst hxi
      rcases hmem x hx with h' | h'
      · exact hv h'
      · omega

theorem popOrder_nodup {g : BuildGraph} (hg : DAGOk g) (m : Nat) :
    (popOrder g m).Nodup :=
  popOrderF_nodup hg (m + 1) m [] (by omega) (by simp)

/-! ## Serial linearization (src/sandworm/core.py lines 85-100)

`_linearize_recurse` does a post-order descent, threading a `records` dict
(modelled as an association list in insertion order) and a `count`.  Note
the quirk faithfully kept from core.py line 87: the caller ADDS the
callee's returned count to its own (`count += _linearize_recurse(...)`)
instead of assigning it, so index values jump, but they remain strictly
increasing in insertion order, which is all `sorted` needs. -/

def keysOf (records : List (Nat × Nat)) : List Nat := records.map Prod.fst

/-- The tail of `_linearize_recurse` (core.py lines 89-93): insert `targ` if
it is new and out of date, bumping the count. -/
def linPost (g : BuildGraph) (i : Nat) (st : List (Nat × Nat) × Nat) :
    List (Nat × Nat) × Nat :=
  if (List.lookup i st.1).isNone && outOfDate g i then
    (st.1 ++ [(i, st.2)], st.2 + 1)
  else st

/-- Fuelled `_linearize_recurse` (core.py lines 85-93); returns the updated
records list together with the returned count. -/
def linRecF (g : BuildGraph) : Nat → Nat → List (Nat × Nat) → Nat →
    List (Nat × Nat) × Nat
  | 0, _, records, count => (records, count)
  | fuel + 1, i, records, count =>
    linPost g i
      ((g.deps i).foldl
        (fun st d =>
          ((linRecF g fuel d st.1 st.2).1, st.2 + (linRecF g fuel d st.1 st.2).2))
        (records, count))

/-- Stable ascending insertion by the recorded index, modelling
`sorted(records.items(), key=lambda x: x[1])` (core.py line 100). -/
def insertByVal (p : Nat × Nat) : List (Nat × Nat) → List (Nat × Nat)
  | [] => [p]
  | q :: t => if p.2 < q.2 then p :: q :: t else q :: insertByVal p t

def sortByVal : List (Nat × Nat) → List (Nat × Nat)
  | [] => []
  | p :: t => insertByVal p (sortByVal t)

/-- `_linearize` (core.py lines 96-100). -/
def linearize (g : BuildGraph) (main : Nat) : List Nat :=
  (sortByVal (linRecF g (main + 1) main [] 0).1).map Prod.fst

theorem lookup_isNone_iff (k : Nat) :
    ∀ l : List (Nat × Nat), (List.lookup k l).isNone = true ↔ k ∉ keysOf l := by
  intro l
  induction l with
  | nil => simp [keysOf]
  | cons p t ih =>
    by_cases hk : k = p.1
    · subst hk
      simp [List.lookup, keysOf]
    · have hb : (k == p.1) = false := beq_eq_false_iff_ne.mpr hk
      simp only [List.lookup, hb, keysOf, List.map_cons, List.mem_cons]
      rw [ih]
      simp only [keysOf]
      tauto

/-- The invariants `_linearize_recurse` maintains on its records list:
index values strictly increase in insertion order and stay below the
running count, keys are unique, and every recorded target's out-of-date
dependencies were recorded before it (position `n` only depends on keys
among the first `n` entries). -/
def RecOk (g : BuildGraph) (records : List (Nat × Nat)) (count : Nat) : Prop :=
  List.Pairwise (· < ·) (records.map Prod.snd) ∧
  (∀ p ∈ records, p.2 < count) ∧
  (keysOf records).Nodup ∧
  (∀ n p, records.get? n = some p → ∀ u ∈ g.deps p.1,
    outOfDate g u = true → u ∈ keysOf (records.take n))

theorem recOk_mono {g : BuildGraph} {records : List (Nat × Nat)} {c c' : Nat}
    (h : RecOk g records c) (hc : c ≤ c') : RecOk g records c' :=
  ⟨h.1, fun p hp => lt_of_lt_of_le (h.2.1 p hp) hc, h.2.2.1, h.2.2.2⟩

theorem recOk_append {g : BuildGraph} {records : List (Nat × Nat)} {c : Nat}
    (h : RecOk g records c) (i : Nat)
    (hdeps : ∀ u ∈ g.deps i, outOfDate g u = true → u ∈ keysOf records)
    (hnew : i ∉ keysOf records) :
    RecOk g (records ++ [(i, c)]) (c + 1) := by
  obtain ⟨h₁, h₂, h₃, h₄⟩ := h
  refine ⟨?_, ?_, ?_, ?_⟩
  · rw [List.map_append, List.pairwise_append]
    exact ⟨h₁, by simp, fun a ha b hb => by
      simp only [List.map_cons, List.map_nil, List.mem_singleton] at hb
      subst hb
      simp only [List.mem_map] at ha
      obtain ⟨p, hp, rfl⟩ := ha
      exact h₂ p hp⟩
  · intro p hp
    rcases List.mem_append.mp hp with hp' | hp'
    · exact lt_trans (h₂ p hp') (by omega)
    · simp only [List.mem_singleton] at hp'
      subst hp'
      omega
  · simp only [keysOf, List.map_append]
    rw [List.nodup_append]
    refine ⟨h₃, by simp, fun a ha hb => ?_⟩
    simp only [List.map_cons, List.map_nil, List.mem_singleton] at hb
    exact hnew (hb ▸ ha)
  · intro n p hp u hu hou
    by_cases hn : n < records.length
    · rw [List.get?_append hn] at hp
      rw [List.take_append_of_le_length (le_of_lt hn)]
      exact h₄ n p hp u hu hou
    · have hn' : n = records.length := by
        by_contra hne
        rw [List.get?_append_right (by omega)] at hp
        have : n - records.length ≥ 1 := by omega
        rw [List.get?_eq_none.mpr (by simp; omega)] at hp
        exact Option.noConfusion hp
      subst hn'
      rw [List.get?_append_right (by omega)] at hp
      simp only [Nat.sub_self, List.get?] at hp
      cases hp
      rw [List.take_append_of_le_length (le_refl _), List.take_length]
      exact hdeps u hu hou

theorem linRecF_spec {g : BuildGraph} (hg : DAGOk g) :
    ∀ fuel i records count, i < fuel → RecOk g records count →
      (∃ Δ, (linRecF g fuel i records count).1 = records ++ Δ) ∧
      count ≤ (linRecF g fuel i records count).2 ∧
      RecOk g (linRecF g fuel i records count).1
        (linRecF g fuel i records count).2 ∧
      (∀ x, x ∈ keysOf (linRecF g fuel i records count).1 ↔
        x ∈ keysOf records ∨ (Reach g i x ∧ outOfDate g x = true)) := by
  intro fuel
  induction fuel with
  | zero => intro i records count h; omega
  | succ f ih =>
    intro i records count hf hrc
    have hfold : ∀ (l : List Nat), (∀ d ∈ l, d < f) →
        ∀ records count, RecOk g records count →
        (∃ Δ, (l.foldl
            (fun st d =>
              ((linRecF g f d st.1 st.2).1, st.2 + (linRecF g f d st.1 st.2).2))
            (records, count)).1 = records ++ Δ) ∧
        count ≤ (l.foldl
            (fun st d =>
              ((linRecF g f d st.1 st.2).1, st.2 + (linRecF g f d st.1 st.2).2))
            (records, count)).2 ∧
        RecOk g (l.foldl
            (fun st d =>
              ((linRecF g f d st.1 st.2).1, st.2 + (linRecF g f d st.1 st.2).2))
            (records, count)).1
          (l.foldl
            (fun st d =>
              ((linRecF g f d st.1 st.2).1, st.2 + (linRecF g f d st.1 st.2).2))
            (records, count)).2 ∧
        (∀ x, x ∈ keysOf (l.foldl
            (fun st d =>
              ((linRecF g f d st.1 st.2).1, st.2 + (linRecF g f d st.1 st.2).2))
            (records, count)).1 ↔
          x ∈ keysOf records ∨ ∃ d ∈ l, Reach g d x ∧ outOfDate g x = true) := by
      intro l
      induction l with
      | nil =>
        intro _ records count hrc
        refine ⟨⟨[], (List.append_nil records).symm⟩, le_refl _, hrc, fun x => ?_⟩
        simp
      | cons a t iht =>
        intro hsub records count hrc
        have ha : a < f := hsub a (by simp)
        obtain ⟨⟨Δa, hΔa⟩, hca, hreca, hmema⟩ := ih a records count ha hrc
        simp only [List.foldl_cons]
        have hrec' : RecOk g (linRecF g f a records count).1
            (count + (linRecF g f a records count).2) :=
          recOk_mono hreca (by omega)
        obtain ⟨⟨Δt, hΔt⟩, hct, hrect, hmemt⟩ :=
          iht (fun d hd => hsub d (List.mem_cons_of_mem a hd))
            (linRecF g f a records count).1
            (count + (linRecF g f a records count).2) hrec'
        refine ⟨⟨Δa ++ Δt, by rw [hΔt, hΔa, List.append_assoc]⟩, by omega,
          hrect, fun x => ?_⟩
        rw [hmemt x, hmema x]
        constructor
        · rintro ((h | ⟨hr, ho⟩) | ⟨d, hd, hr, ho⟩)
          · exact Or.inl h
          · exact Or.inr ⟨a, by simp, hr, ho⟩
          · exact Or.inr ⟨d, List.mem_cons_of_mem a hd, hr, ho⟩
        · rintro (h | ⟨d, hd, hr, ho⟩)
          · exact Or.inl (Or.inl h)
          · rcases List.mem_cons.mp hd with rfl | hd'
            · exact Or.inl (Or.inr ⟨hr, ho⟩)
            · exact Or.inr ⟨d, hd', hr, ho⟩
    have hsubd : ∀ d ∈ g.deps i, d < f := fun d hd => by
      have := hg i d hd; omega
    obtain ⟨⟨Δ, hΔ⟩, hcnt, hrec, hmem⟩ := hfold (g.deps i) hsubd records count hrc
    simp only [linRecF, linPost]
    by_cases hnone : (List.lookup i
        ((g.deps i).foldl
          (fun st d =>
            ((linRecF g f d st.1 st.2).1, st.2 + (linRecF g f d st.1 st.2).2))
          (records, count)).1).isNone = true
    · by_cases hood : outOfDate g i = true
      · simp only [hnone, hood, Bool.and_self, if_true]
        have hnew := (lookup_isNone_iff i _).mp hnone
        have hdeps : ∀ u ∈ g.deps i, outOfDate g u = true →
            u ∈ keysOf ((g.deps i).foldl
              (fun st d =>
                ((linRecF g f d st.1 st.2).1, st.2 + (linRecF g f d st.1 st.2).2))
              (records, count)).1 := by
          intro u hu hou
          exact (hmem u).mpr (Or.inr ⟨u, hu, Reach.refl u, hou⟩)
        refine ⟨⟨Δ ++ [(i, _)], by rw [hΔ, List.append_assoc]⟩, by omega,
          recOk_append hrec i hdeps hnew, fun x => ?_⟩
        simp only [keysOf, List.map_append, List.map_cons, List.map_nil,
          List.mem_append, List.mem_singleton]
        constructor
        · rintro (hx | rfl)
          · rcases (hmem x).mp hx with h | ⟨d, hd, hr, ho⟩
            · exact Or.inl h
            · exact Or.inr ⟨Reach.step hd hr, ho⟩
          · exact Or.inr ⟨Reach.refl x, hood⟩
        · rintro (hx | ⟨hr, ho⟩)
          · exact Or.inl ((hmem x).mpr (Or.inl hx))
          · cases hr with
            | refl => exact Or.inr rfl
            | step hd hr' =>
              exact Or.inl ((hmem x).mpr (Or.inr ⟨_, hd, hr', ho⟩))
      · simp only [hnone, Bool.true_and]
        rw [if_neg (by simpa using hood)]
        refine ⟨⟨Δ, hΔ⟩, hcnt, hrec, fun x => ?_⟩
        rw [hmem x]
        constructor
        · rintro (h | ⟨d, hd, hr, ho⟩)
          · exact Or.inl h
          · exact Or.inr ⟨Reach.step hd hr, ho⟩
        · rintro (h | ⟨hr, ho⟩)
          · exact Or.inl h
          · cases hr with
            | refl => exact absurd ho hood
            | step hd hr' => exact Or.inr ⟨_, hd, hr', ho⟩
    · simp only [Bool.not_eq_true] at hnone
      rw [if_neg (by simp [hnone])]
      refine ⟨⟨Δ, hΔ⟩, hcnt, hrec, fun x => ?_⟩
      rw [hmem x]
      have hin : i ∈ keysOf ((g.deps i).foldl
          (fun st d =>
            ((linRecF g f d st.1 st.2).1, st.2 + (linRecF g f d st.1 st.2).2))
          (records, count)).1 := by
        by_contra hni
        rw [← lookup_isNone_iff] at hni
        rw [hni] at hnone
        exact Bool.noConfusion hnone
      constructor
      · rintro (h | ⟨d, hd, hr, ho⟩)
        · exact Or.inl h
        · exact Or.inr ⟨Reach.step hd hr, ho⟩
      · rintro (h | ⟨hr, ho⟩)
        · exact Or.inl h
        · cases hr with
          | refl => exact (hmem i).mp hin
          | step hd hr' => exact Or.inr ⟨_, hd, hr', ho⟩

theorem insertByVal_of_lt (p : Nat × Nat) :
    ∀ t : List (Nat × Nat), (∀ q ∈ t, p.2 < q.2) → insertByVal p t = p :: t := by
  intro t ht
  cases t with
  | nil => rfl
  | cons q t' => simp [insertByVal, ht q (by simp)]

theorem sortByVal_eq_self :
    ∀ l : List (Nat × Nat), List.Pairwise (· < ·) (l.map Prod.snd) →
      sortByVal l = l := by
  intro l
  induction l with
  | nil => intro _; rfl
  | cons p t ih =>
    intro h
    simp only [List.map_cons, List.pairwise_cons] at h
    simp only [sortByVal, ih h.2]
    refine insertByVal_of_lt p t fun q hq => ?_
    exact h.1 q.2 (List.mem_map_of_mem Prod.snd hq)

theorem splitGet {α : Type} (l l₁ : List α) (p : α) (l₂ : List α)
    (h : l = l₁ ++ p :: l₂) :
    l.get? l₁.length = some p ∧ l.take l₁.length = l₁ := by
  subst h
  constructor
  · rw [List.get?_append_right (le_refl _)]
    simp
  · exact List.take_left l₁ (p :: l₂)

/-- The records produced by `_linearize_recurse(main, {}, 0)`. -/
def linRecords (g : BuildGraph) (main : Nat) : List (Nat × Nat) :=
  (linRecF g (main + 1) main [] 0).1

theorem recOk_nil (g : BuildGraph) : RecOk g [] 0 :=
  ⟨by simp, by simp, by simp [keysOf], fun n p hp => by simp at hp⟩

theorem linRecords_spec {g : BuildGraph} (hg : DAGOk g) (m : Nat) :
    RecOk g (linRecords g m) (linRecF g (m + 1) m [] 0).2 ∧
    (∀ x, x ∈ keysOf (linRecords g m) ↔ Reach g m x ∧ outOfDate g x = true) := by
  obtain ⟨_, _, hrec, hmem⟩ :=
    linRecF_spec hg (m + 1) m [] 0 (by omega) (recOk_nil g)
  refine ⟨hrec, fun x => ?_⟩
  rw [show keysOf (linRecords g m) = keysOf (linRecF g (m + 1) m [] 0).1 from rfl]
  rw [hmem x]
  simp [keysOf]

theorem linearize_eq_keys {g : BuildGraph} (hg : DAGOk g) (m : Nat) :
    linearize g m = keysOf (linRecords g m) := by
  obtain ⟨hrec, _⟩ := linRecords_spec hg m
  show (sortByVal (linRecF g (m + 1) m [] 0).1).map Prod.fst = _
  rw [show (linRecF g (m + 1) m [] 0).1 = linRecords g m from rfl]
  rw [sortByVal_eq_self _ hrec.1]
  rfl

theorem linearize_mem {g : BuildGraph} (hg : DAGOk g) (m x : Nat) :
    x ∈ linearize g m ↔ Reach g m x ∧ outOfDate g x = true := by
  rw [linearize_eq_keys hg m]
  exact (linRecords_spec hg m).2 x

theorem linearize_nodup {g : BuildGraph} (hg : DAGOk g) (m : Nat) :
    (linearize g m).Nodup := by
  rw [linearize_eq_keys hg m]
  exact (linRecords_spec hg m).1.2.2.1

theorem mapFst_split :
    ∀ (l : List (Nat × Nat)) (pre : List Nat) (v : Nat) (suf : List Nat),
      l.map Prod.fst = pre ++ v :: suf →
      ∃ l₁ p l₂, l = l₁ ++ p :: l₂ ∧ l₁.map Prod.fst = pre ∧ p.1 = v := by
  intro l
  induction l with
  | nil => intro pre v suf h; simp at h
  | cons q t ih =>
    intro pre v suf h
    cases pre with
    | nil =>
      simp only [List.map_cons, List.nil_append] at h
      exact ⟨[], q, t, by simp, by simp, (List.cons.inj h).1⟩
    | cons a pre' =>
      simp only [List.map_cons, List.cons_append] at h
      obtain ⟨ha, ht⟩ := List.cons.inj h
      obtain ⟨l₁, p, l₂, h₁, h₂, h₃⟩ := ih pre' v suf ht
      exact ⟨q :: l₁, p, l₂, by rw [h₁]; rfl, by simp [h₂, ha], h₃⟩

theorem linearize_order {g : BuildGraph} (hg : DAGOk g) (m : Nat) :
    ∀ pre v suf, linearize g m = pre ++ v :: suf →
      ∀ u ∈ g.deps v, outOfDate g u = true → u ∈ pre := by
  intro pre v suf hsplit u hu hou
  rw [linearize_eq_keys hg m] at hsplit
  obtain ⟨hrec, _⟩ := linRecords_spec hg m
  obtain ⟨l₁, p, l₂, hl, hpre, hv⟩ :=
    mapFst_split (linRecords g m) pre v suf hsplit
  obtain ⟨hget, htake⟩ := splitGet _ l₁ p l₂ hl
  have := hrec.2.2.2 l₁.length p hget u (by rw [hv]; exact hu) hou
  rw [htake] at this
  rw [← hpre]
  exact this

/-! ## Serial runner: `_build_sequence` (src/sandworm/core.py lines 74-82)

The runner walks the sequence, skipping targets whose `built` flag is set,
calling `targ.build()` otherwise, and returning False at the first failure.
`build()` invokes the user builder exactly when one is present (appending to
the invocation trace) and sets the `built` flag only on builder success
(target.py lines 96-98). -/

def buildSeqFull (g : BuildGraph) :
    List Nat → Finset Nat → List Nat → Bool × Finset Nat × List Nat
  | [], built, tr => (true, built, tr)
  | i :: rest, built, tr =>
    if i ∈ built then buildSeqFull g rest built tr
    else
      if buildNode g i then
        buildSeqFull g rest
          (if (g.builder i).isSome then insert i built else built)
          (tr ++ if (g.builder i).isSome then [i] else [])
      else (false, built, tr ++ if (g.builder i).isSome then [i] else [])

/-- Every target in the built set succeeded (true of any set the runner
produces, since `built` is only set after a successful builder run). -/
def BuiltOk (g : BuildGraph) (built : Finset Nat) : Prop :=
  ∀ j ∈ built, buildNode g j = true

theorem buildSeq_result {g : BuildGraph} :
    ∀ (l : List Nat) (built : Finset Nat) (tr : List Nat),
      BuiltOk g built →
      (buildSeqFull g l built tr).1 = l.all (buildNode g) := by
  intro l
  induction l with
  | nil => intro built tr _; rfl
  | cons i rest ih =>
    intro built tr hb
    simp only [buildSeqFull, List.all_cons]
    by_cases hbi : i ∈ built
    · simp only [hbi, if_true]
      rw [ih built tr hb, hb i hbi, Bool.true_and]
    · simp only [hbi, if_false]
      by_cases hr : buildNode g i = true
      · simp only [hr, if_true, Bool.true_and]
        refine ih _ _ fun j hj => ?_
        by_cases hbs : (g.builder i).isSome
        · simp only [hbs, if_true, Finset.mem_insert] at hj
          rcases hj with rfl | hj'
          · exact hr
          · exact hb j hj'
        · simp only [hbs, if_false] at hj
          exact hb j hj
      · simp [hr]

theorem buildSeq_trace_exact {g : BuildGraph} :
    ∀ (l : List Nat) (built : Finset Nat) (tr : List Nat),
      (∀ i ∈ l, buildNode g i = true) →
      (∀ i ∈ l, i ∉ built) → l.Nodup →
      (buildSeqFull g l built tr).2.2 =
        tr ++ l.filter (fun i => (g.builder i).isSome) := by
  intro l
  induction l with
  | nil => intro built tr _ _ _; simp [buildSeqFull]
  | cons i rest ih =>
    intro built tr hok hnb hnd
    simp only [buildSeqFull]
    rw [if_neg (hnb i (by simp))]
    rw [if_pos (hok i (by simp))]
    have hnd' := List.nodup_cons.mp hnd
    by_cases hbs : (g.builder i).isSome
    · simp only [hbs, if_true]
      rw [ih _ _ (fun j hj => hok j (List.mem_cons_of_mem i hj))
        (fun j hj => by
          simp only [Finset.mem_insert]
          push_neg
          exact ⟨fun he => hnd'.1 (he ▸ hj), hnb j (List.mem_cons_of_mem i hj)⟩)
        hnd'.2]
      simp [List.filter_cons, hbs]
    · replace hbs : (g.builder i).isSome = false := by simpa using hbs
      simp only [hbs, Bool.false_eq_true, if_false, List.append_nil]
      rw [ih _ _ (fun j hj => hok j (List.mem_cons_of_mem i hj))
        (fun j hj => hnb j (List.mem_cons_of_mem i hj)) hnd'.2]
      simp [List.filter_cons, hbs]

/-- Even with duplicate entries and a pre-populated built set, a target with
a builder that appears in an all-successful sequence ends up in the
invocation trace, provided built targets were already traced. -/
theorem buildSeq_trace_mem {g : BuildGraph} :
    ∀ (l : List Nat) (built : Finset Nat) (tr : List Nat),
      (∀ i ∈ l, buildNode g i = true) →
      (∀ j ∈ built, (g.builder j).isSome = true → j ∈ tr) →
      ∀ i ∈ l, (g.builder i).isSome = true →
        i ∈ (buildSeqFull g l built tr).2.2 := by
  intro l
  induction l with
  | nil => intro built tr _ _ i hi; simp at hi
  | cons a rest ih =>
    intro built tr hok htr i hi hbs
    have htr_mono : ∀ (l' : List Nat) (b' : Finset Nat) (t' : List Nat) (x : Nat),
        x ∈ t' → x ∈ (buildSeqFull g l' b' t').2.2 := by
      intro l'
      induction l' with
      | nil => intro b' t' x hx; exact hx
      | cons c r ihr =>
        intro b' t' x hx
        simp only [buildSeqFull]
        by_cases hc : c ∈ b'
        · simp only [hc, if_true]; exact ihr b' t' x hx
        · simp only [hc, if_false]
          by_cases hr : buildNode g c = true
          · simp only [hr, if_true]
            exact ihr _ _ x (List.mem_append_left _ hx)
          · simp only [hr, if_false]
            exact List.mem_append_left _ hx
    simp only [buildSeqFull]
    by_cases hba : a ∈ built
    · simp only [hba, if_true]
      rcases List.mem_cons.mp hi with rfl | hi'
      · exact htr_mono rest built tr i (htr i hba hbs)
      · exact ih built tr (fun j hj => hok j (List.mem_cons_of_mem a hj)) htr i hi' hbs
    · simp only [hba, if_false]
      rw [if_pos (hok a (by simp))]
      rcases List.mem_cons.mp hi with rfl | hi'
      · simp only [hbs, if_true]
        exact htr_mono rest _ _ i (List.mem_append_right _ (by simp))
      · refine ih _ _ (fun j hj => hok j (List.mem_cons_of_mem a hj)) ?_ i hi' hbs
        intro j hj hjs
        by_cases hja : (g.builder a).isSome = true
        · simp only [hja, if_true] at hj ⊢
          rcases Finset.mem_insert.mp hj with rfl | hj'
          · exact List.mem_append_right _ (by simp)
          · exact List.mem_append_left _ (htr j hj' hjs)
        · replace hja : (g.builder a).isSome = false := by simpa using hja
          simp only [hja, Bool.false_eq_true, if_false, List.append_nil] at hj ⊢
          exact htr j hj hjs

/-- C7: For every dependency graph rooted at `main`, `_linearize(main)`
returns exactly the out-of-date targets reachable from `main`, each exactly
once, ordered so that every dependency that appears in the sequence precedes
every target that depends on it, with up-to-date targets omitted. -/
theorem c7_linearize_correct (g : BuildGraph) (hg : DAGOk g) (m : Nat) :
    (∀ x, x ∈ linearize g m ↔ Reach g m x ∧ outOfDate g x = true) ∧
    (linearize g m).Nodup ∧
    (∀ pre v suf, linearize g m = pre ++ v :: suf →
      ∀ u ∈ g.deps v, u ∈ linearize g m → u ∈ pre) := by
  refine ⟨linearize_mem hg m, linearize_nodup hg m, ?_⟩
  intro pre v suf hsplit u hu humem
  exact linearize_order hg m pre v suf hsplit u hu
    ((linearize_mem hg m u).mp humem).2

/-- Diamond-shaped graph used to witness C7: node 2 depends on 0 and 1,
node 1 depends on 0; all plain targets (stale) with trivial builders. -/
def gC7 : BuildGraph :=
  { deps := mkDeps [[], [0], [0, 1]], builder := fun _ => some true,
    exi := fun _ => false, lm := fun _ => none }

theorem c7_witness :
    DAGOk gC7 ∧
    ((∀ x, x ∈ linearize gC7 2 ↔ Reach gC7 2 x ∧ outOfDate gC7 x = true) ∧
    (linearize gC7 2).Nodup ∧
    (∀ pre v suf, linearize gC7 2 = pre ++ v :: suf →
      ∀ u ∈ gC7.deps v, u ∈ linearize gC7 2 → u ∈ pre)) := by
  have h : DAGOk gC7 := dagOkTable_sound [[], [0], [0, 1]] (by decide)
  exact ⟨h, c7_linearize_correct gC7 h 2⟩

/-! ## Parallel scheduler (src/sandworm/_parallel.py)

Pre-pass (`populate_job_pre_map`, lines 153-188): a target gets a pipe — is
a job — iff it has a builder or has no dependencies (line 181).  Its waiter
is the set of dependency tokens forwarded through phony aggregates: a job
dependency contributes its own token (read end), a phony dependency
contributes its whole waiter set (lines 159-168).  Tokens are modelled by
the node index (Python uses the pipe's fileno, in bijection with the job).

Dispatch loop (`JobPool.run` / `_handle_ready_connection`, lines 99-137):
the loop consumes completion events one at a time; the order in which
completions become available on the fileno pipe depends on worker timing,
so the model takes an explicit schedule choosing which available completion
is delivered next.  Python's `None | single Connection | set` encoding of
waiters is semantically the remaining-set encoding used here: a single-conn
waiter finishes when that conn is delivered with that delivery's status,
and a set waiter finishes when its last conn is delivered, with the LAST
delivery's status (which is what lines 107-117 implement). -/

def isJob (g : BuildGraph) (i : Nat) : Bool :=
  (g.builder i).isSome || (g.deps i).isEmpty

/-- Fuelled waiter-set computation (child_waiter_set of
`populate_job_pre_map`). -/
def wsF (g : BuildGraph) : Nat → Nat → Finset Nat
  | 0, _ => ∅
  | fuel + 1, i =>
    (g.deps i).foldl
      (fun s d => if isJob g d then insert d s else s ∪ wsF g fuel d) ∅

/-- The waiter set of target `i`: the tokens `i`'s job must wait on. -/
def waiterSet (g : BuildGraph) (i : Nat) : Finset Nat :=
  wsF g (i + 1) i

inductive PEvent where
  | deliver : Nat → Bool → PEvent
  | start : Nat → PEvent
deriving DecidableEq

/-- Scheduler state: `waiting` is `JobPool._jobs` (non-leaf jobs with their
remaining waiters), `available` the completions written to pipes but not yet
consumed from the fileno channel, `events` the observable trace (builder
submissions and completion deliveries, in order), `anyFailures` the
`_any_failures` flag. -/
structure PState where
  waiting : List (Nat × Finset Nat)
  available : List (Nat × Bool)
  events : List PEvent
  anyFailures : Bool
deriving DecidableEq

/-- `JobPool._handle_job` (lines 85-91): a null-builder job synthesizes a
completion equal to `exists`; otherwise the job is submitted to the pool
(the builder starts) and its completion carries the builder's result. -/
def handleJob (g : BuildGraph) (st : PState) (j : Nat) : PState :=
  match g.builder j with
  | none => { st with available := st.available ++ [(j, g.exi j)] }
  | some r =>
    { st with events := st.events ++ [PEvent.start j],
              available := st.available ++ [(j, r)] }

/-- `JobPool._handle_job_status` (lines 93-97): run the job if the
just-delivered status succeeded, else synthesize a failure completion. -/
def finishJob (g : BuildGraph) (st : PState) (j : Nat) (s : Bool) : PState :=
  if s then handleJob g st j
  else { st with available := st.available ++ [(j, false)] }

/-- The scan over `self._jobs` in `_handle_ready_connection` (lines
104-121), rebuilding the waiting list without the finished jobs. -/
def deliverScan (g : BuildGraph) (conn : Nat) (s : Bool) :
    PState → List (Nat × Finset Nat) → PState
  | st, [] => st
  | st, (j, rem) :: rest =>
    if conn ∈ rem then
      if rem.erase conn = ∅ then deliverScan g conn s (finishJob g st j s) rest
      else deliverScan g conn s
        { st with waiting := st.waiting ++ [(j, rem.erase conn)] } rest
    else deliverScan g conn s { st with waiting := st.waiting ++ [(j, rem)] } rest

/-- `_handle_ready_connection` (lines 99-121): record the delivery, set
`_any_failures` on a failed status, then scan the waiting jobs. -/
def deliverOne (g : BuildGraph) (st : PState) (t : Nat) (s : Bool) : PState :=
  deliverScan g t s
    { st with waiting := [],
              events := st.events ++ [PEvent.deliver t s],
              anyFailures := st.anyFailures || !s }
    st.waiting

/-- The `while self._pending_connections:` loop of `JobPool.run` (lines
130-133).  `sched` picks which available completion arrives next on the
fileno channel (worker timing); one delivery per iteration. -/
def runLoop (g : BuildGraph) : Nat → List Nat → PState → PState
  | 0, _, st => st
  | fuel + 1, sched, st =>
    if st.available.isEmpty then st
    else
      runLoop g fuel (sched.drop 1)
        (deliverOne g
          { st with available :=
              st.available.eraseIdx (sched.headD 0 % st.available.length) }
          (st.available.getD (sched.headD 0 % st.available.length) (0, true)).1
          (st.available.getD (sched.headD 0 % st.available.length) (0, true)).2)

/-- The jobs of a build rooted at `main`, in `job_pre_map` insertion order
(the iteration order of `parallel_root_build`, lines 199-207). -/
def jobList (g : BuildGraph) (main : Nat) : List Nat :=
  (popOrder g main).filter (fun i => isJob g i)

def leafJobs (g : BuildGraph) (main : Nat) : List Nat :=
  (jobList g main).filter (fun i => decide (waiterSet g i = ∅))

def nonLeafJobs (g : BuildGraph) (main : Nat) : List Nat :=
  (jobList g main).filter (fun i => !decide (waiterSet g i = ∅))

def initPState (g : BuildGraph) (main : Nat) : PState :=
  { waiting := (nonLeafJobs g main).map (fun j => (j, waiterSet g j)),
    available := [], events := [], anyFailures := false }

/-- `parallel_root_build` (lines 191-212) composed with `JobPool.run`:
handle the leaves, then consume completions until none are pending.  The
fuel `(jobList g main).length` covers every possible delivery, since each
job's pipe carries exactly one status. -/
def parallelRun (g : BuildGraph) (main : Nat) (sched : List Nat) : PState :=
  runLoop g (jobList g main).length sched
    ((leafJobs g main).foldl (handleJob g) (initPState g main))

/-- The boolean `JobPool.run` returns (line 137): `not self._any_failures`. -/
def parallelResult (g : BuildGraph) (main : Nat) (sched : List Nat) : Bool :=
  !(parallelRun g main sched).anyFailures

def startTokens (events : List PEvent) : List Nat :=
  events.filterMap fun e =>
    match e with
    | PEvent.start t => some t
    | _ => none

def delivTokens (events : List PEvent) : List Nat :=
  events.filterMap fun e =>
    match e with
    | PEvent.deliver t _ => some t
    | _ => none

/-- Diamond with a failing left leg: 0 fails, 1 succeeds, 2 waits on both. -/
def gC1 : BuildGraph :=
  { deps := mkDeps [[], [], [0, 1]],
    builder := fun i => if i = 0 then some false else some true,
    exi := fun _ => false, lm := fun _ => none }


/-- The status a job's own run produces: the builder's result, or `exists`
for a null-builder (necessarily dependency-free) job (lines 85-91). -/
def jobStatus (g : BuildGraph) (j : Nat) : Bool :=
  match g.builder j with
  | some r => r
  | none => g.exi j

theorem wsF_irrel {g : BuildGraph} (hg : DAGOk g) :
    ∀ f₁ f₂ i, i < f₁ → i < f₂ → wsF g f₁ i = wsF g f₂ i := by
  intro f₁
  induction f₁ with
  | zero => intro f₂ i h; omega
  | succ f ih =>
    intro f₂ i h₁ h₂
    cases f₂ with
    | zero => omega
    | succ f₂ =>
      simp only [wsF]
      refine foldlCongr _ _ _ _ fun s d hd => ?_
      have hdi := hg i d hd
      rw [ih f₂ d (by omega) (by omega)]

theorem wsFold_mem {g : BuildGraph} (f : Nat) :
    ∀ (l : List Nat) (s₀ : Finset Nat) (u : Nat),
      u ∈ l.foldl
        (fun s d => if isJob g d then insert d s else s ∪ wsF g f d) s₀ ↔
      u ∈ s₀ ∨ ∃ d ∈ l,
        (isJob g d = true ∧ u = d) ∨ (isJob g d = false ∧ u ∈ wsF g f d) := by
  intro l
  induction l with
  | nil => intro s₀ u; simp
  | cons a t ih =>
    intro s₀ u
    simp only [List.foldl_cons]
    rcases Bool.eq_false_or_eq_true (isJob g a) with hj | hj
    · rw [if_pos hj, ih]
      simp only [Finset.mem_insert]
      constructor
      · rintro ((h | h) | ⟨d, hd, h⟩)
        · exact Or.inr ⟨a, by simp, Or.inl ⟨hj, h⟩⟩
        · exact Or.inl h
        · exact Or.inr ⟨d, List.mem_cons_of_mem a hd, h⟩
      · rintro (h | ⟨d, hd, h⟩)
        · exact Or.inl (Or.inr h)
        · rcases List.mem_cons.mp hd with rfl | hd'
          · rcases h with ⟨_, h₁⟩ | ⟨h₂, _⟩
            · exact Or.inl (Or.inl h₁)
            · rw [hj] at h₂; exact Bool.noConfusion h₂
          · exact Or.inr ⟨d, hd', h⟩
    · rw [if_neg (by simp [hj]), ih]
      simp only [Finset.mem_union]
      constructor
      · rintro ((h | h) | ⟨d, hd, h⟩)
        · exact Or.inl h
        · exact Or.inr ⟨a, by simp, Or.inr ⟨hj, h⟩⟩
        · exact Or.inr ⟨d, List.mem_cons_of_mem a hd, h⟩
      · rintro (h | ⟨d, hd, h⟩)
        · exact Or.inl (Or.inl h)
        · rcases List.mem_cons.mp hd with rfl | hd'
          · rcases h with ⟨h₁, _⟩ | ⟨_, h₂⟩
            · rw [hj] at h₁; exact Bool.noConfusion h₁
            · exact Or.inl (Or.inr h₂)
          · exact Or.inr ⟨d, hd', h⟩

theorem waiterSet_mem {g : BuildGraph} (hg : DAGOk g) (i u : Nat) :
    u ∈ waiterSet g i ↔ ∃ d ∈ g.deps i,
      (isJob g d = true ∧ u = d) ∨ (isJob g d = false ∧ u ∈ waiterSet g d) := by
  show u ∈ wsF g (i + 1) i ↔ _
  simp only [wsF]
  rw [wsFold_mem]
  simp only [Finset.not_mem_empty, false_or, waiterSet]
  constructor
  · rintro ⟨d, hd, h⟩
    refine ⟨d, hd, ?_⟩
    rcases h with h | ⟨h₁, h₂⟩
    · exact Or.inl h
    · rw [wsF_irrel hg i (d + 1) d (hg i d hd) (by omega)] at h₂
      exact Or.inr ⟨h₁, h₂⟩
  · rintro ⟨d, hd, h⟩
    refine ⟨d, hd, ?_⟩
    rcases h with h | ⟨h₁, h₂⟩
    · exact Or.inl h
    · rw [wsF_irrel hg (d + 1) i d (by omega) (hg i d hd)] at h₂
      exact Or.inr ⟨h₁, h₂⟩

/-- Waiter-set elements are jobs, strictly below their owner, and reachable
from it. -/
theorem ws_elem {g : BuildGraph} (hg : DAGOk g) :
    ∀ i u, u ∈ waiterSet g i →
      isJob g u = true ∧ u < i ∧ Reach g i u := by
  intro i
  induction i using Nat.strong_induction_on with
  | _ i ih =>
    intro u hu
    rw [waiterSet_mem hg] at hu
    obtain ⟨d, hd, h⟩ := hu
    rcases h with ⟨hj, rfl⟩ | ⟨_, h₂⟩
    · exact ⟨hj, hg i u hd, Reach.step hd (Reach.refl u)⟩
    · obtain ⟨h₁, h₂', h₃⟩ := ih d (hg i d hd) u h₂
      exact ⟨h₁, lt_trans h₂' (hg i d hd), Reach.step hd h₃⟩

theorem ws_of_dep_job {g : BuildGraph} (hg : DAGOk g) {i d : Nat}
    (hd : d ∈ g.deps i) (hj : isJob g d = true) : d ∈ waiterSet g i :=
  (waiterSet_mem hg i d).mpr ⟨d, hd, Or.inl ⟨hj, rfl⟩⟩

theorem jobList_mem {g : BuildGraph} (hg : DAGOk g) (m j : Nat) :
    j ∈ jobList g m ↔ Reach g m j ∧ isJob g j = true := by
  simp only [jobList, List.mem_filter]
  rw [mem_popOrder hg]

/-- A job's waiter set lives inside the job list of the same build. -/
theorem ws_sub_jobList {g : BuildGraph} (hg : DAGOk g) {m j u : Nat}
    (hj : j ∈ jobList g m) (hu : u ∈ waiterSet g j) : u ∈ jobList g m := by
  obtain ⟨h₁, _, h₃⟩ := ws_elem hg j u hu
  rw [jobList_mem hg] at hj ⊢
  exact ⟨Reach.trans hj.1 h₃, h₁⟩

theorem handleJob_waiting (g : BuildGraph) (st : PState) (j : Nat) :
    (handleJob g st j).waiting = st.waiting := by
  cases h : g.builder j <;> simp [handleJob, h]

theorem handleJob_available (g : BuildGraph) (st : PState) (j : Nat) :
    (handleJob g st j).available = st.available ++ [(j, jobStatus g j)] := by
  cases h : g.builder j <;> simp [handleJob, jobStatus, h]

theorem handleJob_events (g : BuildGraph) (st : PState) (j : Nat) :
    (handleJob g st j).events =
      st.events ++ (if (g.builder j).isSome then [PEvent.start j] else []) := by
  cases h : g.builder j <;> simp [handleJob, h]

theorem handleJob_anyF (g : BuildGraph) (st : PState) (j : Nat) :
    (handleJob g st j).anyFailures = st.anyFailures := by
  cases h : g.builder j <;> simp [handleJob, h]

theorem finishJob_waiting (g : BuildGraph) (st : PState) (j : Nat) (s : Bool) :
    (finishJob g st j s).waiting = st.waiting := by
  cases s
  · simp [finishJob]
  · simp [finishJob, handleJob_waiting]

theorem finishJob_available (g : BuildGraph) (st : PState) (j : Nat) (s : Bool) :
    (finishJob g st j s).available =
      st.available ++ [(j, if s then jobStatus g j else false)] := by
  cases s
  · simp [finishJob]
  · simp [finishJob, handleJob_available]

theorem finishJob_events (g : BuildGraph) (st : PState) (j : Nat) (s : Bool) :
    (finishJob g st j s).events =
      st.events ++ (if s && (g.builder j).isSome then [PEvent.start j] else []) := by
  cases s
  · simp [finishJob]
  · simp [finishJob, handleJob_events]

theorem finishJob_anyF (g : BuildGraph) (st : PState) (j : Nat) (s : Bool) :
    (finishJob g st j s).anyFailures = st.anyFailures := by
  cases s
  · simp [finishJob]
  · simp [finishJob, handleJob_anyF]

/-- The waiting entries the scan keeps, with the delivered token erased. -/
def scanKeep (conn : Nat) (l : List (Nat × Finset Nat)) :
    List (Nat × Finset Nat) :=
  l.filterMap fun p =>
    if conn ∈ p.2 then
      (if p.2.erase conn = ∅ then none else some (p.1, p.2.erase conn))
    else some p

/-- The jobs whose waiter empties at this delivery, in scan order. -/
def scanDone (conn : Nat) (l : List (Nat × Finset Nat)) : List Nat :=
  l.filterMap fun p =>
    if conn ∈ p.2 ∧ p.2.erase conn = ∅ then some p.1 else none

theorem deliverScan_spec (g : BuildGraph) (conn : Nat) (s : Bool) :
    ∀ (l : List (Nat × Finset Nat)) (st : PState),
      (deliverScan g conn s st l).waiting = st.waiting ++ scanKeep conn l ∧
      (deliverScan g conn s st l).available =
        st.available ++
          (scanDone conn l).map (fun j => (j, if s then jobStatus g j else false)) ∧
      (deliverScan g conn s st l).events =
        st.events ++
          (scanDone conn l).filterMap
            (fun j => if s && (g.builder j).isSome then some (PEvent.start j)
              else none) ∧
      (deliverScan g conn s st l).anyFailures = st.anyFailures := by
  intro l
  induction l with
  | nil =>
    intro st
    simp [deliverScan, scanKeep, scanDone]
  | cons p rest ih =>
    intro st
    obtain ⟨j, rem⟩ := p
    by_cases hc : conn ∈ rem
    · by_cases he : rem.erase conn = ∅
      · have : deliverScan g conn s st ((j, rem) :: rest) =
            deliverScan g conn s (finishJob g st j s) rest := by
          simp [deliverScan, hc, he]
        rw [this]
        obtain ⟨h₁, h₂, h₃, h₄⟩ := ih (finishJob g st j s)
        refine ⟨?_, ?_, ?_, ?_⟩
        · rw [h₁, finishJob_waiting]
          simp [scanKeep, List.filterMap_cons, hc, he]
        · rw [h₂, finishJob_available]
          simp [scanDone, List.filterMap_cons, hc, he]
        · rw [h₃, finishJob_events]
          by_cases hbs : (s && (g.builder j).isSome) = true
          · have hbs' : s = true ∧ (g.builder j).isSome = true :=
              Bool.and_eq_true _ _ ▸ hbs
            simp [scanDone, List.filterMap_cons, hc, he, hbs, hbs'.1, hbs'.2]
          · have hbs' : ¬(s = true ∧ (g.builder j).isSome = true) := by
              rw [← Bool.and_eq_true]
              exact hbs
            simp [scanDone, List.filterMap_cons, hc, he, hbs, hbs']
        · rw [h₄, finishJob_anyF]
      · have : deliverScan g conn s st ((j, rem) :: rest) =
            deliverScan g conn s
              { st with waiting := st.waiting ++ [(j, rem.erase conn)] } rest := by
          simp [deliverScan, hc, he]
        rw [this]
        obtain ⟨h₁, h₂, h₃, h₄⟩ := ih
          { st with waiting := st.waiting ++ [(j, rem.erase conn)] }
        refine ⟨?_, ?_, ?_, ?_⟩
        · rw [h₁]
          simp [scanKeep, List.filterMap_cons, hc, he]
        · rw [h₂]
          simp [scanDone, List.filterMap_cons, hc, he]
        · rw [h₃]
          simp [scanDone, List.filterMap_cons, hc, he]
        · exact h₄
    · have : deliverScan g conn s st ((j, rem) :: rest) =
          deliverScan g conn s
            { st with waiting := st.waiting ++ [(j, rem)] } rest := by
        simp [deliverScan, hc]
      rw [this]
      obtain ⟨h₁, h₂, h₃, h₄⟩ := ih { st with waiting := st.waiting ++ [(j, rem)] }
      refine ⟨?_, ?_, ?_, ?_⟩
      · rw [h₁]
        simp [scanKeep, List.filterMap_cons, hc]
      · rw [h₂]
        simp [scanDone, List.filterMap_cons, hc]
      · rw [h₃]
        simp [scanDone, List.filterMap_cons, hc]
      · exact h₄

theorem deliverOne_spec (g : BuildGraph) (st : PState) (t : Nat) (s : Bool) :
    (deliverOne g st t s).waiting = scanKeep t st.waiting ∧
    (deliverOne g st t s).available =
      st.available ++
        (scanDone t st.waiting).map (fun j => (j, if s then jobStatus g j else false)) ∧
    (deliverOne g st t s).events =
      (st.events ++ [PEvent.deliver t s]) ++
        (scanDone t st.waiting).filterMap
          (fun j => if s && (g.builder j).isSome then some (PEvent.start j)
            else none) ∧
    (deliverOne g st t s).anyFailures = (st.anyFailures || !s) := by
  obtain ⟨h₁, h₂, h₃, h₄⟩ := deliverScan_spec g t s st.waiting
    { st with waiting := [],
              events := st.events ++ [PEvent.deliver t s],
              anyFailures := st.anyFailures || !s }
  exact ⟨by simpa using h₁, by simpa using h₂, by simpa using h₃, by simpa using h₄⟩

theorem scan_perm (conn : Nat) :
    ∀ l : List (Nat × Finset Nat),
      (l.map Prod.fst).Perm
        ((scanKeep conn l).map Prod.fst ++ scanDone conn l) := by
  intro l
  induction l with
  | nil => simp [scanKeep, scanDone]
  | cons p rest ih =>
    obtain ⟨j, rem⟩ := p
    by_cases hc : conn ∈ rem
    · by_cases he : rem.erase conn = ∅
      · rw [show scanKeep conn ((j, rem) :: rest) = scanKeep conn rest from by
            simp [scanKeep, List.filterMap_cons, hc, he],
          show scanDone conn ((j, rem) :: rest) = j :: scanDone conn rest from by
            simp [scanDone, List.filterMap_cons, hc, he]]
        simp only [List.map_cons]
        exact (List.Perm.cons j ih).trans List.perm_middle.symm
      · rw [show scanKeep conn ((j, rem) :: rest) =
              (j, rem.erase conn) :: scanKeep conn rest from by
            simp [scanKeep, List.filterMap_cons, hc, he],
          show scanDone conn ((j, rem) :: rest) = scanDone conn rest from by
            simp [scanDone, List.filterMap_cons, hc, he]]
        simp only [List.map_cons]
        exact List.Perm.cons j ih
    · rw [show scanKeep conn ((j, rem) :: rest) = (j, rem) :: scanKeep conn rest
            from by simp [scanKeep, List.filterMap_cons, hc],
        show scanDone conn ((j, rem) :: rest) = scanDone conn rest from by
          simp [scanDone, List.filterMap_cons, hc]]
      simp only [List.map_cons]
      exact List.Perm.cons j ih

theorem scan_length (conn : Nat) :
    ∀ l : List (Nat × Finset Nat),
      (scanKeep conn l).length + (scanDone conn l).length = l.length := by
  intro l
  have := (scan_perm conn l).length_eq
  simp only [List.length_map, List.length_append] at this
  omega

theorem scanKeep_mem (conn : Nat) (l : List (Nat × Finset Nat)) (q : Nat × Finset Nat) :
    q ∈ scanKeep conn l ↔
      ∃ rem, (q.1, rem) ∈ l ∧
        ((conn ∈ rem ∧ q.2 = rem.erase conn ∧ rem.erase conn ≠ ∅) ∨
         (conn ∉ rem ∧ q.2 = rem)) := by
  simp only [scanKeep, List.mem_filterMap]
  constructor
  · rintro ⟨⟨j, rem⟩, hmem, hf⟩
    by_cases hc : conn ∈ rem
    · by_cases he : rem.erase conn = ∅
      · rw [if_pos hc, if_pos he] at hf
        exact Option.noConfusion hf
      · rw [if_pos hc, if_neg he] at hf
        cases hf
        exact ⟨rem, hmem, Or.inl ⟨hc, rfl, he⟩⟩
    · rw [if_neg hc] at hf
      cases hf
      exact ⟨rem, hmem, Or.inr ⟨hc, rfl⟩⟩
  · rintro ⟨rem, hmem, ⟨hc, hq, he⟩ | ⟨hc, hq⟩⟩
    · refine ⟨(q.1, rem), hmem, ?_⟩
      rw [if_pos hc, if_neg he, ← hq]
    · refine ⟨(q.1, rem), hmem, ?_⟩
      rw [if_neg hc, ← hq]

theorem scanDone_mem (conn : Nat) (l : List (Nat × Finset Nat)) (j : Nat) :
    j ∈ scanDone conn l ↔
      ∃ rem, (j, rem) ∈ l ∧ conn ∈ rem ∧ rem.erase conn = ∅ := by
  simp only [scanDone, List.mem_filterMap]
  constructor
  · rintro ⟨⟨j', rem⟩, hmem, hf⟩
    by_cases hc : conn ∈ rem ∧ rem.erase conn = ∅
    · rw [if_pos hc] at hf
      cases hf
      exact ⟨rem, hmem, hc.1, hc.2⟩
    · rw [if_neg hc] at hf
      exact Option.noConfusion hf
  · rintro ⟨rem, hmem, hc, he⟩
    exact ⟨(j, rem), hmem, by rw [if_pos ⟨hc, he⟩]⟩

theorem leavesFold_spec (g : BuildGraph) :
    ∀ (l : List Nat) (st : PState),
      (l.foldl (handleJob g) st).waiting = st.waiting ∧
      (l.foldl (handleJob g) st).available =
        st.available ++ l.map (fun j => (j, jobStatus g j)) ∧
      (l.foldl (handleJob g) st).events =
        st.events ++ l.filterMap
          (fun j => if (g.builder j).isSome then some (PEvent.start j) else none) ∧
      (l.foldl (handleJob g) st).anyFailures = st.anyFailures := by
  intro l
  induction l with
  | nil => intro st; simp
  | cons a rest ih =>
    intro st
    simp only [List.foldl_cons]
    obtain ⟨h₁, h₂, h₃, h₄⟩ := ih (handleJob g st a)
    refine ⟨?_, ?_, ?_, ?_⟩
    · rw [h₁, handleJob_waiting]
    · rw [h₂, handleJob_available]
      simp
    · rw [h₃, handleJob_events]
      by_cases hbs : (g.builder a).isSome = true
      · simp [List.filterMap_cons, hbs]
      · replace hbs : (g.builder a).isSome = false := by simpa using hbs
        simp [List.filterMap_cons, hbs]
    · rw [h₄, handleJob_anyF]

theorem eraseIdx_decomp {α : Type} :
    ∀ (l : List α) (k : Nat) (d : α), k < l.length →
      ∃ A₁ A₂, l = A₁ ++ l.getD k d :: A₂ ∧ l.eraseIdx k = A₁ ++ A₂ ∧
        A₁.length = k := by
  intro l
  induction l with
  | nil => intro k d h; simp at h
  | cons a t ih =>
    intro k d h
    cases k with
    | zero => exact ⟨[], t, by simp, rfl, rfl⟩
    | succ k' =>
      obtain ⟨A₁, A₂, h₁, h₂, h₃⟩ := ih k' d (by simpa using h)
      refine ⟨a :: A₁, A₂, ?_, ?_, by simp [h₃]⟩
      · rw [List.getD_cons_succ, List.cons_append, ← h₁]
      · rw [show (a :: t).eraseIdx (k' + 1) = a :: t.eraseIdx k' from rfl, h₂]
        rfl

theorem delivTokens_append (e₁ e₂ : List PEvent) :
    delivTokens (e₁ ++ e₂) = delivTokens e₁ ++ delivTokens e₂ :=
  List.filterMap_append e₁ e₂ _

theorem startTokens_append (e₁ e₂ : List PEvent) :
    startTokens (e₁ ++ e₂) = startTokens e₁ ++ startTokens e₂ :=
  List.filterMap_append e₁ e₂ _

theorem mem_delivTokens (e : List PEvent) (t : Nat) :
    t ∈ delivTokens e ↔ ∃ s, PEvent.deliver t s ∈ e := by
  simp only [delivTokens, List.mem_filterMap]
  constructor
  · rintro ⟨ev, hev, hf⟩
    cases ev with
    | deliver t' s => exact ⟨s, by cases hf; exact hev⟩
    | start _ => exact Option.noConfusion hf
  · rintro ⟨s, hs⟩
    exact ⟨PEvent.deliver t s, hs, rfl⟩

theorem mem_startTokens (e : List PEvent) (t : Nat) :
    t ∈ startTokens e ↔ PEvent.start t ∈ e := by
  simp only [startTokens, List.mem_filterMap]
  constructor
  · rintro ⟨ev, hev, hf⟩
    cases ev with
    | deliver _ _ => exact Option.noConfusion hf
    | start t' => cases hf; exact hev
  · intro hs
    exact ⟨PEvent.start t, hs, rfl⟩

/-- The state invariant of `JobPool.run`'s dispatch loop.  `m` is the build
root; `jobList g m` the pipes registered as pending connections. -/
structure PInv (g : BuildGraph) (m : Nat) (st : PState) : Prop where
  wListSub : ∀ p ∈ st.waiting, p.1 ∈ jobList g m
  wRemSub : ∀ p ∈ st.waiting, ∀ u ∈ p.2, u ∈ waiterSet g p.1
  wRemNe : ∀ p ∈ st.waiting, p.2 ≠ ∅
  wRemFresh : ∀ p ∈ st.waiting, ∀ u ∈ p.2, u ∉ delivTokens st.events
  wRemCover : ∀ p ∈ st.waiting, ∀ u ∈ waiterSet g p.1,
    u ∈ p.2 ∨ u ∈ delivTokens st.events
  aSub : ∀ c ∈ st.available, c.1 ∈ jobList g m
  sentNodup : (delivTokens st.events ++ st.available.map Prod.fst).Nodup
  partition : ∀ j ∈ jobList g m,
    j ∈ st.waiting.map Prod.fst ∨ j ∈ st.available.map Prod.fst ∨
      j ∈ delivTokens st.events
  wFresh : ∀ p ∈ st.waiting,
    p.1 ∉ st.available.map Prod.fst ∧ p.1 ∉ delivTokens st.events
  wNodup : (st.waiting.map Prod.fst).Nodup
  startOrder : ∀ pre v suf, st.events = pre ++ PEvent.start v :: suf →
    ∀ u ∈ waiterSet g v, ∃ s, PEvent.deliver u s ∈ pre
  startJob : ∀ v, PEvent.start v ∈ st.events →
    v ∈ jobList g m ∧ (g.builder v).isSome = true
  dGenuine : ∀ t, PEvent.deliver t true ∈ st.events → jobStatus g t = true
  aGenuine : ∀ c ∈ st.available, c.2 = true → jobStatus g c.1 = true
  anyFIff : st.anyFailures = true ↔ ∃ t, PEvent.deliver t false ∈ st.events

theorem filter_split_mem {α : Type} (p : α → Bool) (l : List α) (x : α)
    (hx : x ∈ l) : x ∈ l.filter p ∨ x ∈ l.filter (fun a => !p a) := by
  rcases Bool.eq_false_or_eq_true (p x) with h | h
  · exact Or.inl (List.mem_filter.mpr ⟨hx, h⟩)
  · exact Or.inr (List.mem_filter.mpr ⟨hx, by simp [h]⟩)

/-- The state after `JobPool.run` has submitted the leaves (lines 126-128)
satisfies the dispatch-loop invariant. -/
theorem init_inv {g : BuildGraph} (hg : DAGOk g) (m : Nat) :
    PInv g m ((leafJobs g m).foldl (handleJob g) (initPState g m)) := by
  obtain ⟨h₁, h₂, h₃, h₄⟩ := leavesFold_spec g (leafJobs g m) (initPState g m)
  have hjn : (jobList g m).Nodup := (popOrder_nodup hg m).filter _
  have hleaf_sub : ∀ j ∈ leafJobs g m, j ∈ jobList g m := fun j hj =>
    (List.mem_filter.mp hj).1
  have hnon_sub : ∀ j ∈ nonLeafJobs g m, j ∈ jobList g m := fun j hj =>
    (List.mem_filter.mp hj).1
  have hleaf_ws : ∀ j ∈ leafJobs g m, waiterSet g j = ∅ := fun j hj => by
    have := (List.mem_filter.mp hj).2
    simpa using this
  have hnon_ws : ∀ j ∈ nonLeafJobs g m, waiterSet g j ≠ ∅ := fun j hj => by
    have := (List.mem_filter.mp hj).2
    simpa using this
  have hwmap : ((initPState g m).waiting.map Prod.fst) = nonLeafJobs g m := by
    simp only [initPState, List.map_map]
    rw [show (Prod.fst ∘ fun j : Nat => (j, waiterSet g j)) = id from rfl,
      List.map_id]
  have hamap :
      (((leafJobs g m).foldl (handleJob g) (initPState g m)).available.map
        Prod.fst) = leafJobs g m := by
    rw [h₂]
    simp only [initPState, List.nil_append, List.map_map]
    rw [show (Prod.fst ∘ fun j : Nat => (j, jobStatus g j)) = id from rfl,
      List.map_id]
  have hdel :
      delivTokens ((leafJobs g m).foldl (handleJob g) (initPState g m)).events
        = [] := by
    rw [h₃]
    simp only [initPState, List.nil_append]
    induction leafJobs g m with
    | nil => rfl
    | cons a t iht =>
      by_cases hbs : (g.builder a).isSome = true
      · simpa [List.filterMap_cons, hbs, delivTokens] using iht
      · replace hbs : (g.builder a).isSome = false := by simpa using hbs
        simpa [List.filterMap_cons, hbs, delivTokens] using iht
  refine ⟨?_, ?_, ?_, ?_, ?_, ?_, ?_, ?_, ?_, ?_, ?_, ?_, ?_, ?_, ?_⟩
  · rw [h₁]
    intro p hp
    simp only [initPState, List.mem_map] at hp
    obtain ⟨j, hj, rfl⟩ := hp
    exact hnon_sub j hj
  · rw [h₁]
    intro p hp
    simp only [initPState, List.mem_map] at hp
    obtain ⟨j, hj, rfl⟩ := hp
    exact fun u hu => hu
  · rw [h₁]
    intro p hp
    simp only [initPState, List.mem_map] at hp
    obtain ⟨j, hj, rfl⟩ := hp
    exact hnon_ws j hj
  · rw [h₁, hdel]
    intro p _ u _
    simp
  · rw [h₁]
    intro p hp u hu
    simp only [initPState, List.mem_map] at hp
    obtain ⟨j, hj, rfl⟩ := hp
    exact Or.inl hu
  · intro c hc
    rw [h₂] at hc
    simp only [initPState, List.nil_append, List.mem_map] at hc
    obtain ⟨j, hj, rfl⟩ := hc
    exact hleaf_sub j hj
  · rw [hdel, hamap]
    simp only [List.nil_append]
    exact hjn.filter _
  · intro j hj
    rw [h₁, hamap, hwmap]
    rcases filter_split_mem (fun i => decide (waiterSet g i = ∅)) (jobList g m) j hj
      with h | h
    · exact Or.inr (Or.inl h)
    · exact Or.inl h
  · rw [h₁, hamap, hdel]
    intro p hp
    simp only [initPState, List.mem_map] at hp
    obtain ⟨j, hj, rfl⟩ := hp
    refine ⟨fun hmem => ?_, by simp⟩
    have h₁' := hleaf_ws j hmem
    exact hnon_ws j hj h₁'
  · rw [h₁, hwmap]
    exact hjn.filter _
  · intro pre v suf hev u hu
    exfalso
    have hv : PEvent.start v ∈
        ((leafJobs g m).foldl (handleJob g) (initPState g m)).events := by
      rw [hev]; exact List.mem_append_right _ (by simp)
    rw [h₃] at hv
    simp only [initPState, List.nil_append, List.mem_filterMap] at hv
    obtain ⟨j, hj, hf⟩ := hv
    by_cases hbs : (g.builder j).isSome = true
    · rw [if_pos hbs] at hf
      cases hf
      rw [hleaf_ws v hj] at hu
      simp at hu
    · rw [if_neg hbs] at hf
      exact Option.noConfusion hf
  · intro v hv
    rw [h₃] at hv
    simp only [initPState, List.nil_append, List.mem_filterMap] at hv
    obtain ⟨j, hj, hf⟩ := hv
    by_cases hbs : (g.builder j).isSome = true
    · rw [if_pos hbs] at hf
      cases hf
      exact ⟨hleaf_sub v hj, hbs⟩
    · rw [if_neg hbs] at hf
      exact Option.noConfusion hf
  · intro t ht
    exfalso
    have : t ∈ delivTokens
        ((leafJobs g m).foldl (handleJob g) (initPState g m)).events :=
      (mem_delivTokens _ t).mpr ⟨true, ht⟩
    rw [hdel] at this
    simp at this
  · intro c hc hct
    rw [h₂] at hc
    simp only [initPState, List.nil_append, List.mem_map] at hc
    obtain ⟨j, _, rfl⟩ := hc
    exact hct ▸ rfl
  · rw [h₄]
    simp only [initPState]
    constructor
    · intro h; exact Bool.noConfusion h
    · rintro ⟨t, ht⟩
      exfalso
      have : t ∈ delivTokens
          ((leafJobs g m).foldl (handleJob g) (initPState g m)).events :=
        (mem_delivTokens _ t).mpr ⟨false, ht⟩
      rw [hdel] at this
      simp at this

theorem append_split_cons {α : Type} :
    ∀ (l₁ l₂ pre suf : List α) (x : α), l₁ ++ l₂ = pre ++ x :: suf →
      (∃ suf₁, l₁ = pre ++ x :: suf₁ ∧ suf = suf₁ ++ l₂) ∨
      (∃ pre₂, l₂ = pre₂ ++ x :: suf ∧ pre = l₁ ++ pre₂) := by
  intro l₁
  induction l₁ with
  | nil =>
    intro l₂ pre suf x h
    exact Or.inr ⟨pre, by simpa using h, by simp⟩
  | cons a l₁' ih =>
    intro l₂ pre suf x h
    cases pre with
    | nil =>
      simp only [List.nil_append, List.cons_append] at h ⊢
      obtain ⟨rfl, h₂⟩ := List.cons.inj h
      exact Or.inl ⟨l₁', by simp, h₂.symm⟩
    | cons b pre' =>
      simp only [List.cons_append] at h
      obtain ⟨rfl, h₂⟩ := List.cons.inj h
      rcases ih l₂ pre' suf x h₂ with ⟨suf₁, h₃, h₄⟩ | ⟨pre₂, h₃, h₄⟩
      · exact Or.inl ⟨suf₁, by rw [h₃]; rfl, h₄⟩
      · exact Or.inr ⟨pre₂, h₃, by rw [h₄]; rfl⟩

theorem starts_no_deliv (l : List Nat) (f : Nat → Bool) :
    delivTokens (l.filterMap
      (fun j => if f j then some (PEvent.start j) else none)) = [] := by
  induction l with
  | nil => rfl
  | cons a t ih =>
    by_cases hf : f a = true
    · simpa [List.filterMap_cons, hf, delivTokens] using ih
    · replace hf : f a = false := by simpa using hf
      simpa [List.filterMap_cons, hf, delivTokens] using ih

theorem mem_starts_filterMap (l : List Nat) (f : Nat → Bool) (ev : PEvent)
    (h : ev ∈ l.filterMap (fun j => if f j then some (PEvent.start j) else none)) :
    ∃ j ∈ l, f j = true ∧ ev = PEvent.start j := by
  rw [List.mem_filterMap] at h
  obtain ⟨j, hj, hf⟩ := h
  by_cases hfj : f j = true
  · rw [if_pos hfj] at hf
    cases hf
    exact ⟨j, hj, hfj, rfl⟩
  · rw [if_neg hfj] at hf
    exact Option.noConfusion hf

theorem start_mem_starts_filterMap (l : List Nat) (f : Nat → Bool) (j : Nat)
    (hj : j ∈ l) (hf : f j = true) :
    PEvent.start j ∈ l.filterMap
      (fun j => if f j then some (PEvent.start j) else none) := by
  rw [List.mem_filterMap]
  exact ⟨j, hj, by rw [if_pos hf]⟩

/-- The remaining waiter of a job that finishes at this delivery is exactly
the singleton of the delivered token. -/
theorem erase_empty_singleton {rem : Finset Nat} {t : Nat}
    (ht : t ∈ rem) (he : rem.erase t = ∅) : ∀ u ∈ rem, u = t := by
  intro u hu
  by_contra hne
  have : u ∈ rem.erase t := Finset.mem_erase.mpr ⟨hne, hu⟩
  rw [he] at this
  exact absurd this (Finset.not_mem_empty u)

theorem step_preserve {g : BuildGraph} (hg : DAGOk g) (m : Nat) {st : PState}
    (hinv : PInv g m st) (A₁ A₂ : List (Nat × Bool)) (t : Nat) (s : Bool)
    (hsplit : st.available = A₁ ++ (t, s) :: A₂) :
    PInv g m (deliverOne g { st with available := A₁ ++ A₂ } t s) := by
  have hW : (deliverOne g { st with available := A₁ ++ A₂ } t s).waiting =
      scanKeep t st.waiting :=
    (deliverOne_spec g { st with available := A₁ ++ A₂ } t s).1
  have hA : (deliverOne g { st with available := A₁ ++ A₂ } t s).available =
      (A₁ ++ A₂) ++ (scanDone t st.waiting).map
        (fun j => (j, if s then jobStatus g j else false)) :=
    (deliverOne_spec g { st with available := A₁ ++ A₂ } t s).2.1
  have hE : (deliverOne g { st with available := A₁ ++ A₂ } t s).events =
      (st.events ++ [PEvent.deliver t s]) ++
        (scanDone t st.waiting).filterMap
          (fun j => if s && (g.builder j).isSome then some (PEvent.start j)
            else none) :=
    (deliverOne_spec g { st with available := A₁ ++ A₂ } t s).2.2.1
  have hF : (deliverOne g { st with available := A₁ ++ A₂ } t s).anyFailures =
      (st.anyFailures || !s) :=
    (deliverOne_spec g { st with available := A₁ ++ A₂ } t s).2.2.2
  have hts_mem : (t, s) ∈ st.available := by
    rw [hsplit]; exact List.mem_append_right _ (by simp)
  have ht_job : t ∈ jobList g m := hinv.aSub _ hts_mem
  have havf : st.available.map Prod.fst =
      A₁.map Prod.fst ++ t :: A₂.map Prod.fst := by
    rw [hsplit]; simp
  have hdel' : delivTokens
      (deliverOne g { st with available := A₁ ++ A₂ } t s).events =
      delivTokens st.events ++ [t] := by
    rw [hE, delivTokens_append, delivTokens_append, starts_no_deliv]
    simp [delivTokens]
  have hperm : (st.waiting.map Prod.fst).Perm
      ((scanKeep t st.waiting).map Prod.fst ++ scanDone t st.waiting) :=
    scan_perm t st.waiting
  have hKD_nodup : ((scanKeep t st.waiting).map Prod.fst ++
      scanDone t st.waiting).Nodup := hperm.nodup_iff.mp hinv.wNodup
  have hD_sub_w : ∀ j ∈ scanDone t st.waiting, j ∈ st.waiting.map Prod.fst :=
    fun j hj => hperm.mem_iff.mpr (List.mem_append_right _ hj)
  have hK_sub_w : ∀ j ∈ (scanKeep t st.waiting).map Prod.fst,
      j ∈ st.waiting.map Prod.fst :=
    fun j hj => hperm.mem_iff.mpr (List.mem_append_left _ hj)
  have hw_fresh' : ∀ j ∈ st.waiting.map Prod.fst,
      j ∉ st.available.map Prod.fst ∧ j ∉ delivTokens st.events := by
    intro j hj
    obtain ⟨p, hp, rfl⟩ := List.mem_map.mp hj
    exact hinv.wFresh p hp
  have hD_waitpair : ∀ j ∈ scanDone t st.waiting,
      ∃ rem, (j, rem) ∈ st.waiting ∧ t ∈ rem ∧ rem.erase t = ∅ :=
    fun j hj => (scanDone_mem t st.waiting j).mp hj
  refine ⟨?_, ?_, ?_, ?_, ?_, ?_, ?_, ?_, ?_, ?_, ?_, ?_, ?_, ?_, ?_⟩
  · -- wListSub
    rw [hW]
    intro p hp
    obtain ⟨rem, hmem, _⟩ := (scanKeep_mem t st.waiting p).mp hp
    exact hinv.wListSub (p.1, rem) hmem
  · -- wRemSub
    rw [hW]
    intro p hp u hu
    obtain ⟨rem, hmem, hcase⟩ := (scanKeep_mem t st.waiting p).mp hp
    rcases hcase with ⟨_, hq, _⟩ | ⟨_, hq⟩
    · rw [hq] at hu
      exact hinv.wRemSub (p.1, rem) hmem u (Finset.mem_of_mem_erase hu)
    · rw [hq] at hu
      exact hinv.wRemSub (p.1, rem) hmem u hu
  · -- wRemNe
    rw [hW]
    intro p hp
    obtain ⟨rem, hmem, hcase⟩ := (scanKeep_mem t st.waiting p).mp hp
    rcases hcase with ⟨_, hq, hne⟩ | ⟨_, hq⟩
    · rw [hq]; exact hne
    · rw [hq]; exact hinv.wRemNe (p.1, rem) hmem
  · -- wRemFresh
    rw [hW, hdel']
    intro p hp u hu
    obtain ⟨rem, hmem, hcase⟩ := (scanKeep_mem t st.waiting p).mp hp
    rcases hcase with ⟨_, hq, _⟩ | ⟨hct, hq⟩
    · rw [hq] at hu
      have hut : u ≠ t := (Finset.mem_erase.mp hu).1
      have := hinv.wRemFresh (p.1, rem) hmem u (Finset.mem_of_mem_erase hu)
      simp only [List.mem_append, List.mem_singleton]
      rintro (h | h)
      · exact this h
      · exact hut h
    · rw [hq] at hu
      have hut : u ≠ t := fun he => hct (he ▸ hu)
      have := hinv.wRemFresh (p.1, rem) hmem u hu
      simp only [List.mem_append, List.mem_singleton]
      rintro (h | h)
      · exact this h
      · exact hut h
  · -- wRemCover
    rw [hW, hdel']
    intro p hp u hu
    obtain ⟨rem, hmem, hcase⟩ := (scanKeep_mem t st.waiting p).mp hp
    have hcov := hinv.wRemCover (p.1, rem) hmem u hu
    rcases hcase with ⟨hct, hq, _⟩ | ⟨hct, hq⟩
    · rw [hq]
      rcases hcov with h | h
      · by_cases hut : u = t
        · subst hut
          exact Or.inr (List.mem_append_right _ (by simp))
        · exact Or.inl (Finset.mem_erase.mpr ⟨hut, h⟩)
      · exact Or.inr (List.mem_append_left _ h)
    · rw [hq]
      rcases hcov with h | h
      · exact Or.inl h
      · exact Or.inr (List.mem_append_left _ h)
  · -- aSub
    rw [hA]
    intro c hc
    rcases List.mem_append.mp hc with h | h
    · refine hinv.aSub c ?_
      rw [hsplit]
      rcases List.mem_append.mp h with h' | h'
      · exact List.mem_append_left _ h'
      · exact List.mem_append_right _ (List.mem_cons_of_mem _ h')
    · obtain ⟨j, hj, rfl⟩ := List.mem_map.mp h
      obtain ⟨rem, hmem, _⟩ := hD_waitpair j hj
      exact hinv.wListSub (j, rem) hmem
  · -- sentNodup
    rw [hA, hdel']
    have hmapfst : ((scanDone t st.waiting).map
        (fun j => (j, if s then jobStatus g j else false))).map Prod.fst =
        scanDone t st.waiting := by
      rw [List.map_map]
      rw [show (Prod.fst ∘ fun j : Nat =>
        (j, if s then jobStatus g j else false)) = id from rfl, List.map_id]
    rw [List.map_append, hmapfst, List.map_append]
    have hDnodup : (scanDone t st.waiting).Nodup :=
      (List.nodup_append.mp hKD_nodup).2.1
    have hsentD : ((delivTokens st.events ++ st.available.map Prod.fst) ++
        scanDone t st.waiting).Nodup := by
      rw [List.nodup_append]
      refine ⟨hinv.sentNodup, hDnodup, ?_⟩
      intro x hx hxD
      obtain ⟨rem, hmem, _⟩ := hD_waitpair x hxD
      have := hinv.wFresh (x, rem) hmem
      rcases List.mem_append.mp hx with h | h
      · exact this.2 h
      · exact this.1 h
    have hgood : (delivTokens st.events ++
        (A₁.map Prod.fst ++ (t :: (A₂.map Prod.fst ++
          scanDone t st.waiting)))).Nodup := by
      have := hsentD
      rw [havf] at this
      simpa only [List.append_assoc, List.cons_append] using this
    have hperm2 : (delivTokens st.events ++
        (A₁.map Prod.fst ++ (t :: (A₂.map Prod.fst ++
          scanDone t st.waiting)))).Perm
        (delivTokens st.events ++
          (t :: (A₁.map Prod.fst ++ (A₂.map Prod.fst ++
            scanDone t st.waiting)))) :=
      List.Perm.append_left _ List.perm_middle
    have hfinal := hperm2.nodup hgood
    simpa only [List.append_assoc, List.cons_append, List.singleton_append]
      using hfinal
  · -- partition
    rw [hW, hA, hdel']
    intro j hj
    have hmapfst : ((scanDone t st.waiting).map
        (fun j => (j, if s then jobStatus g j else false))).map Prod.fst =
        scanDone t st.waiting := by
      rw [List.map_map]
      rw [show (Prod.fst ∘ fun j : Nat =>
        (j, if s then jobStatus g j else false)) = id from rfl, List.map_id]
    rcases hinv.partition j hj with h | h | h
    · rcases List.mem_append.mp ((hperm.mem_iff).mp h) with h' | h'
      · exact Or.inl h'
      · refine Or.inr (Or.inl ?_)
        rw [List.map_append, hmapfst]
        exact List.mem_append_right _ h'
    · rw [havf] at h
      rcases List.mem_append.mp h with h' | h'
      · refine Or.inr (Or.inl ?_)
        rw [List.map_append, List.map_append]
        exact List.mem_append_left _ (List.mem_append_left _ h')
      · rcases List.mem_cons.mp h' with rfl | h''
        · exact Or.inr (Or.inr (List.mem_append_right _ (by simp)))
        · refine Or.inr (Or.inl ?_)
          rw [List.map_append, List.map_append]
          exact List.mem_append_left _ (List.mem_append_right _ h'')
    · exact Or.inr (Or.inr (List.mem_append_left _ h))
  · -- wFresh
    rw [hW, hA, hdel']
    intro p hp
    obtain ⟨rem, hmem, _⟩ := (scanKeep_mem t st.waiting p).mp hp
    have hpw : p.1 ∈ st.waiting.map Prod.fst :=
      List.mem_map.mpr ⟨(p.1, rem), hmem, rfl⟩
    have hfr := hw_fresh' p.1 hpw
    have hpK : p.1 ∈ (scanKeep t st.waiting).map Prod.fst :=
      List.mem_map.mpr ⟨p, hp, rfl⟩
    have hpnD : p.1 ∉ scanDone t st.waiting := by
      intro hD
      have := List.nodup_append.mp hKD_nodup
      exact this.2.2 hpK hD
    constructor
    · rw [List.map_append]
      intro hmem'
      rcases List.mem_append.mp hmem' with h | h
      · rw [List.map_append] at h
        refine hfr.1 ?_
        rw [havf]
        rcases List.mem_append.mp h with h' | h'
        · exact List.mem_append_left _ h'
        · exact List.mem_append_right _ (List.mem_cons_of_mem _ h')
      · refine hpnD ?_
        obtain ⟨c, hc, hcfst⟩ := List.mem_map.mp h
        obtain ⟨j, hjD, rfl⟩ := List.mem_map.mp hc
        exact hcfst ▸ hjD
    · intro hmem'
      rcases List.mem_append.mp hmem' with h | h
      · exact hfr.2 h
      · simp only [List.mem_singleton] at h
        refine hfr.1 ?_
        rw [havf, h]
        exact List.mem_append_right _ (by simp)
  · -- wNodup
    rw [hW]
    exact (List.nodup_append.mp hKD_nodup).1
  · -- startOrder
    rw [hE]
    intro pre v suf hsplit' u hu
    rcases append_split_cons _ _ _ _ _ hsplit' with
      ⟨suf₁, h₁, _⟩ | ⟨pre₂, h₁, h₂⟩
    · rcases append_split_cons _ _ _ _ _ h₁ with
        ⟨suf₂, h₃, _⟩ | ⟨pre₃, h₃, h₄⟩
      · obtain ⟨s', hs'⟩ := hinv.startOrder pre v suf₂ h₃ u hu
        exact ⟨s', hs'⟩
      · exfalso
        cases pre₃ with
        | nil =>
          simp only [List.nil_append] at h₃
          exact PEvent.noConfusion (List.cons.inj h₃).1
        | cons b pre₃' =>
          simp only [List.cons_append] at h₃
          have := (List.cons.inj h₃).2
          simp at this
    · obtain ⟨j, hjD, hcond, hev⟩ := mem_starts_filterMap _ _ (PEvent.start v)
        (by rw [h₁]; exact List.mem_append_right _ (by simp))
      cases hev
      obtain ⟨rem, hmem, hct, hce⟩ := hD_waitpair v hjD
      rcases hinv.wRemCover (v, rem) hmem u hu with h | h
      · have : u = t := erase_empty_singleton hct hce u h
        subst this
        rw [h₂]
        exact ⟨s, List.mem_append_left _ (List.mem_append_right _ (by simp))⟩
      · obtain ⟨s', hs'⟩ := (mem_delivTokens st.events u).mp h
        rw [h₂]
        exact ⟨s', List.mem_append_left _ (List.mem_append_left _ hs')⟩
  · -- startJob
    rw [hE]
    intro v hv
    rcases List.mem_append.mp hv with h | h
    · rcases List.mem_append.mp h with h' | h'
      · exact hinv.startJob v h'
      · simp only [List.mem_singleton] at h'
        exact PEvent.noConfusion h'
    · obtain ⟨j, hjD, hcond, hev⟩ := mem_starts_filterMap _ _ _ h
      cases hev
      obtain ⟨rem, hmem, _⟩ := hD_waitpair v hjD
      refine ⟨hinv.wListSub (v, rem) hmem, ?_⟩
      exact (Bool.and_eq_true _ _ ▸ hcond).2
  · -- dGenuine
    rw [hE]
    intro u hu
    rcases List.mem_append.mp hu with h | h
    · rcases List.mem_append.mp h with h' | h'
      · exact hinv.dGenuine u h'
      · simp only [List.mem_singleton] at h'
        obtain ⟨rfl, rfl⟩ : u = t ∧ true = s := by
          cases h'
          exact ⟨rfl, rfl⟩
        exact hinv.aGenuine _ hts_mem rfl
    · obtain ⟨j, _, _, hev⟩ := mem_starts_filterMap _ _ _ h
      exact PEvent.noConfusion hev
  · -- aGenuine
    rw [hA]
    intro c hc hct
    rcases List.mem_append.mp hc with h | h
    · refine hinv.aGenuine c ?_ hct
      rw [hsplit]
      rcases List.mem_append.mp h with h' | h'
      · exact List.mem_append_left _ h'
      · exact List.mem_append_right _ (List.mem_cons_of_mem _ h')
    · obtain ⟨j, hjD, rfl⟩ := List.mem_map.mp h
      simp only at hct
      rcases Bool.eq_false_or_eq_true s with hs | hs
      · rw [if_pos hs] at hct
        exact hct
      · rw [if_neg (by simp [hs])] at hct
        exact Bool.noConfusion hct
  · -- anyFIff
    rw [hF, hE]
    constructor
    · intro h
      rcases Bool.or_eq_true_iff.mp h with h' | h'
      · obtain ⟨u, hu⟩ := hinv.anyFIff.mp h'
        exact ⟨u, List.mem_append_left _ (List.mem_append_left _ hu)⟩
      · have : s = false := by simpa using h'
        subst this
        exact ⟨t, List.mem_append_left _ (List.mem_append_right _ (by simp))⟩
    · rintro ⟨u, hu⟩
      rcases List.mem_append.mp hu with h | h
      · rcases List.mem_append.mp h with h' | h'
        · exact Bool.or_eq_true_iff.mpr
            (Or.inl (hinv.anyFIff.mpr ⟨u, h'⟩))
        · simp only [List.mem_singleton] at h'
          have hs : s = false := by
            cases h'
            rfl
          subst hs
          simp
      · obtain ⟨j, _, _, hev⟩ := mem_starts_filterMap _ _ _ h
        exact PEvent.noConfusion hev

/-- All reachable jobs succeed on their own: every builder returns True and
every dependency-free null-builder target exists. -/
def AllOkP (g : BuildGraph) (m : Nat) : Prop :=
  ∀ j ∈ jobList g m, jobStatus g j = true

/-- When every job succeeds, no failed status ever exists anywhere in the
pipeline, and every sent job with a builder has been submitted. -/
structure NoFail (g : BuildGraph) (st : PState) : Prop where
  availTrue : ∀ c ∈ st.available, c.2 = true
  delivTrue : ∀ u s, PEvent.deliver u s ∈ st.events → s = true
  anyF : st.anyFailures = false
  sentStarted : ∀ tkn,
    (tkn ∈ delivTokens st.events ∨ tkn ∈ st.available.map Prod.fst) →
    (g.builder tkn).isSome = true → PEvent.start tkn ∈ st.events

theorem init_nofail {g : BuildGraph} (hg : DAGOk g) (m : Nat)
    (hall : AllOkP g m) :
    NoFail g ((leafJobs g m).foldl (handleJob g) (initPState g m)) := by
  obtain ⟨h₁, h₂, h₃, h₄⟩ := leavesFold_spec g (leafJobs g m) (initPState g m)
  have hleaf_sub : ∀ j ∈ leafJobs g m, j ∈ jobList g m := fun j hj =>
    (List.mem_filter.mp hj).1
  have hdel : delivTokens
      ((leafJobs g m).foldl (handleJob g) (initPState g m)).events = [] := by
    rw [h₃]
    simp only [initPState, List.nil_append]
    exact starts_no_deliv _ _
  refine ⟨?_, ?_, ?_, ?_⟩
  · intro c hc
    rw [h₂] at hc
    simp only [initPState, List.nil_append, List.mem_map] at hc
    obtain ⟨j, hj, rfl⟩ := hc
    exact hall j (hleaf_sub j hj)
  · intro u s hu
    exfalso
    have : u ∈ delivTokens
        ((leafJobs g m).foldl (handleJob g) (initPState g m)).events :=
      (mem_delivTokens _ u).mpr ⟨s, hu⟩
    rw [hdel] at this
    simp at this
  · rw [h₄]; rfl
  · intro tkn htkn hbs
    rw [h₃]
    simp only [initPState, List.nil_append]
    rcases htkn with h | h
    · rw [hdel] at h; simp at h
    · rw [h₂] at h
      simp only [initPState, List.nil_append, List.map_map] at h
      rw [show (Prod.fst ∘ fun j : Nat => (j, jobStatus g j)) = id from rfl,
        List.map_id] at h
      exact start_mem_starts_filterMap _ _ tkn h hbs

theorem step_nofail {g : BuildGraph} (hg : DAGOk g) (m : Nat) {st : PState}
    (hinv : PInv g m st) (hnf : NoFail g st) (hall : AllOkP g m)
    (A₁ A₂ : List (Nat × Bool)) (t : Nat) (s : Bool)
    (hsplit : st.available = A₁ ++ (t, s) :: A₂) :
    NoFail g (deliverOne g { st with available := A₁ ++ A₂ } t s) := by
  have hts_mem : (t, s) ∈ st.available := by
    rw [hsplit]; exact List.mem_append_right _ (by simp)
  have hst : s = true := hnf.availTrue (t, s) hts_mem
  subst hst
  have hW : (deliverOne g { st with available := A₁ ++ A₂ } t true).waiting =
      scanKeep t st.waiting :=
    (deliverOne_spec g { st with available := A₁ ++ A₂ } t true).1
  have hA : (deliverOne g { st with available := A₁ ++ A₂ } t true).available =
      (A₁ ++ A₂) ++ (scanDone t st.waiting).map
        (fun j => (j, if true then jobStatus g j else false)) :=
    (deliverOne_spec g { st with available := A₁ ++ A₂ } t true).2.1
  have hE : (deliverOne g { st with available := A₁ ++ A₂ } t true).events =
      (st.events ++ [PEvent.deliver t true]) ++
        (scanDone t st.waiting).filterMap
          (fun j => if true && (g.builder j).isSome then some (PEvent.start j)
            else none) :=
    (deliverOne_spec g { st with available := A₁ ++ A₂ } t true).2.2.1
  have hF : (deliverOne g { st with available := A₁ ++ A₂ } t true).anyFailures =
      (st.anyFailures || !true) :=
    (deliverOne_spec g { st with available := A₁ ++ A₂ } t true).2.2.2
  have hD_waitpair : ∀ j ∈ scanDone t st.waiting,
      ∃ rem, (j, rem) ∈ st.waiting ∧ t ∈ rem ∧ rem.erase t = ∅ :=
    fun j hj => (scanDone_mem t st.waiting j).mp hj
  have hD_job : ∀ j ∈ scanDone t st.waiting, j ∈ jobList g m := by
    intro j hj
    obtain ⟨rem, hmem, _⟩ := hD_waitpair j hj
    exact hinv.wListSub (j, rem) hmem
  have hdel' : delivTokens
      (deliverOne g { st with available := A₁ ++ A₂ } t true).events =
      delivTokens st.events ++ [t] := by
    rw [hE, delivTokens_append, delivTokens_append, starts_no_deliv]
    simp [delivTokens]
  refine ⟨?_, ?_, ?_, ?_⟩
  · intro c hc
    rw [hA] at hc
    rcases List.mem_append.mp hc with h | h
    · refine hnf.availTrue c ?_
      rw [hsplit]
      rcases List.mem_append.mp h with h' | h'
      · exact List.mem_append_left _ h'
      · exact List.mem_append_right _ (List.mem_cons_of_mem _ h')
    · obtain ⟨j, hj, rfl⟩ := List.mem_map.mp h
      simpa using hall j (hD_job j hj)
  · intro u s' hu
    rw [hE] at hu
    rcases List.mem_append.mp hu with h | h
    · rcases List.mem_append.mp h with h' | h'
      · exact hnf.delivTrue u s' h'
      · simp only [List.mem_singleton] at h'
        cases h'
        rfl
    · obtain ⟨j, _, _, hev⟩ := mem_starts_filterMap _ _ _ h
      exact PEvent.noConfusion hev
  · rw [hF, hnf.anyF]
    rfl
  · intro tkn htkn hbs
    rw [hE]
    rw [hdel'] at htkn
    have hmapfst : ((scanDone t st.waiting).map
        (fun j => (j, if true then jobStatus g j else false))).map Prod.fst =
        scanDone t st.waiting := by
      rw [List.map_map]
      rw [show (Prod.fst ∘ fun j : Nat =>
        (j, if true then jobStatus g j else false)) = id from rfl, List.map_id]
    rcases htkn with h | h
    · rcases List.mem_append.mp h with h' | h'
      · exact List.mem_append_left _ (List.mem_append_left _
          (hnf.sentStarted tkn (Or.inl h') hbs))
      · simp only [List.mem_singleton] at h'
        subst h'
        refine List.mem_append_left _ (List.mem_append_left _
          (hnf.sentStarted tkn ?_ hbs))
        right
        rw [hsplit]
        simp
    · rw [hA, List.map_append, hmapfst] at h
      rcases List.mem_append.mp h with h' | h'
      · refine List.mem_append_left _ (List.mem_append_left _
          (hnf.sentStarted tkn ?_ hbs))
        right
        rw [hsplit, List.map_append, List.map_cons]
        rw [List.map_append] at h'
        rcases List.mem_append.mp h' with h'' | h''
        · exact List.mem_append_left _ h''
        · exact List.mem_append_right _ (List.mem_cons_of_mem _ h'')
      · refine List.mem_append_right _ ?_
        exact start_mem_starts_filterMap _ _ tkn h' (by simp [hbs])

theorem filters_length {α : Type} (p : α → Bool) :
    ∀ l : List α, (l.filter p).length + (l.filter (fun a => !p a)).length =
      l.length := by
  intro l
  induction l with
  | nil => rfl
  | cons a t ih =>
    rcases Bool.eq_false_or_eq_true (p a) with h | h
    · simp only [List.filter_cons, h, if_pos, Bool.not_true]
      simp only [Bool.false_eq_true, if_false, List.length_cons]
      omega
    · simp only [List.filter_cons, h, Bool.not_false, if_true, List.length_cons]
      simp only [Bool.false_eq_true, if_false]
      omega

theorem runLoop_succ (g : BuildGraph) (f : Nat) (sched : List Nat)
    (st : PState) (h : st.available.isEmpty = false) :
    runLoop g (f + 1) sched st =
      runLoop g f (sched.drop 1)
        (deliverOne g
          { st with available := st.available.eraseIdx (sched.headD 0 % st.available.length) }
          (st.available.getD (sched.headD 0 % st.available.length) (0, true)).1
          (st.available.getD (sched.headD 0 % st.available.length) (0, true)).2) := by
  rw [runLoop]
  rw [if_neg (by simp [h])]

theorem runLoop_props {g : BuildGraph} (hg : DAGOk g) (m : Nat) :
    ∀ fuel sched st, PInv g m st →
      PInv g m (runLoop g fuel sched st) ∧
      (st.available.length + st.waiting.length ≤ fuel →
        (runLoop g fuel sched st).available = []) ∧
      (∀ ev ∈ st.events, ev ∈ (runLoop g fuel sched st).events) ∧
      (AllOkP g m → NoFail g st → NoFail g (runLoop g fuel sched st)) := by
  intro fuel
  induction fuel with
  | zero =>
    intro sched st hinv
    refine ⟨hinv, fun hlen => ?_, fun ev hev => hev, fun _ hnf => hnf⟩
    have : st.available.length = 0 := by omega
    exact List.length_eq_zero.mp this
  | succ f ih =>
    intro sched st hinv
    by_cases hemp : st.available.isEmpty = true
    · rw [show runLoop g (f + 1) sched st = st from by
        simp [runLoop, hemp]]
      refine ⟨hinv, fun _ => ?_, fun ev hev => hev, fun _ hnf => hnf⟩
      exact List.isEmpty_iff.mp hemp
    · replace hemp : st.available.isEmpty = false := by simpa using hemp
      have hne : st.available ≠ [] := fun h => by simp [h] at hemp
      have hlen0 : 0 < st.available.length := List.length_pos.mpr hne
      have hk : sched.headD 0 % st.available.length < st.available.length :=
        Nat.mod_lt _ hlen0
      obtain ⟨A₁, A₂, hsp, herase, hlenA⟩ :=
        eraseIdx_decomp st.available (sched.headD 0 % st.available.length)
          (0, true) hk
      rw [runLoop_succ g f sched st hemp, herase]
      generalize hgen : st.available.getD
        (sched.headD 0 % st.available.length) (0, true) = c at hsp ⊢
      obtain ⟨t, s⟩ := c
      have hstep := step_preserve hg m hinv A₁ A₂ t s hsp
      have hOne := deliverOne_spec g { st with available := A₁ ++ A₂ } t s
      have hlen' :
          (deliverOne g { st with available := A₁ ++ A₂ } t s).available.length
            + (deliverOne g
                { st with available := A₁ ++ A₂ } t s).waiting.length
            = st.available.length + st.waiting.length - 1 := by
        rw [hOne.2.1, hOne.1]
        have h₁ : st.available.length = A₁.length + A₂.length + 1 := by
          rw [hsp]
          simp only [List.length_append, List.length_cons]
          omega
        have h₂ := scan_length t st.waiting
        simp only [List.length_append, List.length_map]
        have h₃ : ({ st with available := A₁ ++ A₂ } : PState).waiting
            = st.waiting := rfl
        rw [h₃]
        omega
      obtain ⟨hinv2, hdrain2, hmono2, hnf2⟩ :=
        ih (sched.drop 1)
          (deliverOne g { st with available := A₁ ++ A₂ } t s) hstep
      refine ⟨hinv2, ?_, ?_, ?_⟩
      · intro hlen
        exact hdrain2 (by omega)
      · intro ev hev
        refine hmono2 ev ?_
        rw [hOne.2.2.1]
        exact List.mem_append_left _ (List.mem_append_left _ hev)
      · intro hall hnf
        exact hnf2 hall (step_nofail hg m hinv hnf hall A₁ A₂ t s hsp)

theorem deadlock_free {g : BuildGraph} (hg : DAGOk g) (m : Nat) {st : PState}
    (hinv : PInv g m st) (ha : st.available = []) : st.waiting = [] := by
  have key : ∀ j rem, (j, rem) ∈ st.waiting → False := by
    intro j
    induction j using Nat.strong_induction_on with
    | _ j ihj =>
      intro rem hmem
      have hne := hinv.wRemNe (j, rem) hmem
      obtain ⟨u, hu⟩ := Finset.nonempty_iff_ne_empty.mpr hne
      have huws := hinv.wRemSub (j, rem) hmem u hu
      have hult : u < j := (ws_elem hg j u huws).2.1
      have hujob : u ∈ jobList g m :=
        ws_sub_jobList hg (hinv.wListSub (j, rem) hmem) huws
      have hufresh : u ∉ delivTokens st.events :=
        hinv.wRemFresh (j, rem) hmem u hu
      rcases hinv.partition u hujob with h | h | h
      · obtain ⟨p, hp, hpfst⟩ := List.mem_map.mp h
        refine ihj u hult p.2 ?_
        rw [show (u, p.2) = p from by rw [← hpfst]]
        exact hp
      · rw [ha] at h
        simp at h
      · exact hufresh h
  cases hw : st.waiting with
  | nil => rfl
  | cons p rest =>
    exfalso
    exact key p.1 p.2 (by rw [hw]; simp)

/-- After `JobPool.run` finishes, every pending connection has been
consumed: no completion is left undelivered and no job is still waiting. -/
theorem parallelRun_final {g : BuildGraph} (hg : DAGOk g) (m : Nat)
    (sched : List Nat) :
    PInv g m (parallelRun g m sched) ∧
    (parallelRun g m sched).available = [] ∧
    (parallelRun g m sched).waiting = [] := by
  have hinit := init_inv hg m
  obtain ⟨hlspec₁, hlspec₂, _, _⟩ :=
    leavesFold_spec g (leafJobs g m) (initPState g m)
  have hlen :
      ((leafJobs g m).foldl (handleJob g) (initPState g m)).available.length +
      ((leafJobs g m).foldl (handleJob g) (initPState g m)).waiting.length ≤
      (jobList g m).length := by
    rw [hlspec₁, hlspec₂]
    simp only [initPState, List.nil_append, List.length_map]
    have := filters_length (fun i => decide (waiterSet g i = ∅)) (jobList g m)
    simp only [leafJobs, nonLeafJobs]
    omega
  obtain ⟨hinv, hdrain, _, _⟩ :=
    runLoop_props hg m (jobList g m).length sched
      ((leafJobs g m).foldl (handleJob g) (initPState g m)) hinit
  have ha : (parallelRun g m sched).available = [] := hdrain hlen
  exact ⟨hinv, ha, deadlock_free hg m hinv ha⟩

/-- When every job succeeds, the whole run is failure-free. -/
theorem parallelRun_nofail {g : BuildGraph} (hg : DAGOk g) (m : Nat)
    (sched : List Nat) (hall : AllOkP g m) :
    NoFail g (parallelRun g m sched) := by
  obtain ⟨_, _, _, hnf⟩ :=
    runLoop_props hg m (jobList g m).length sched
      ((leafJobs g m).foldl (handleJob g) (initPState g m)) (init_inv hg m)
  exact hnf hall (init_nofail hg m hall)

/-- `JobPool.run` returns True exactly when every reachable job succeeds on
its own. -/
theorem parallelResult_iff {g : BuildGraph} (hg : DAGOk g) (m : Nat)
    (sched : List Nat) :
    parallelResult g m sched = true ↔ AllOkP g m := by
  obtain ⟨hinv, ha, hw⟩ := parallelRun_final hg m sched
  constructor
  · intro hres j hj
    have hanyf : (parallelRun g m sched).anyFailures = false := by
      simpa [parallelResult] using hres
    rcases hinv.partition j hj with h | h | h
    · rw [hw] at h; simp at h
    · rw [ha] at h; simp at h
    · obtain ⟨s, hs⟩ := (mem_delivTokens _ j).mp h
      rcases Bool.eq_false_or_eq_true s with hs' | hs'
      · subst hs'
        exact hinv.dGenuine j hs
      · subst hs'
        exfalso
        have := hinv.anyFIff.mpr ⟨j, hs⟩
        rw [hanyf] at this
        exact Bool.noConfusion this
  · intro hall
    have hnf := parallelRun_nofail hg m sched hall
    simp [parallelResult, hnf.anyF]

/-! ## Serial path wrappers (root_build with max_workers=1, core.py 52-53) -/

def serialOutcome (g : BuildGraph) (m : Nat) : Bool × Finset Nat × List Nat :=
  buildSeqFull g (linearize g m) ∅ []

def serialResult (g : BuildGraph) (m : Nat) : Bool := (serialOutcome g m).1

/-- The builders the serial path invokes, in order. -/
def serialTrace (g : BuildGraph) (m : Nat) : List Nat := (serialOutcome g m).2.2

theorem builtOk_empty (g : BuildGraph) : BuiltOk g ∅ :=
  fun j hj => absurd hj (Finset.not_mem_empty j)

theorem serialResult_all {g : BuildGraph} (m : Nat) :
    serialResult g m = (linearize g m).all (buildNode g) :=
  buildSeq_result (linearize g m) ∅ [] (builtOk_empty g)

theorem buildNode_of_allOk {g : BuildGraph} (hg : DAGOk g) {m : Nat}
    (hall : AllOkP g m) {x : Nat} (hx : Reach g m x) :
    buildNode g x = true := by
  cases hb : g.builder x with
  | some r =>
    have hj : x ∈ jobList g m :=
      (jobList_mem hg m x).mpr ⟨hx, by simp [isJob, hb]⟩
    have := hall x hj
    simp only [jobStatus, hb] at this
    simp [buildNode, hb, this]
  | none =>
    cases hd : g.deps x with
    | nil =>
      have hj : x ∈ jobList g m :=
        (jobList_mem hg m x).mpr ⟨hx, by simp [isJob, hb, hd]⟩
      have := hall x hj
      simp only [jobStatus, hb] at this
      simp [buildNode, hb, hd, this]
    | cons a t => simp [buildNode, hb, hd]

/-- On an all-stale graph, the serial all-succeed test coincides with the
per-job success predicate of the parallel scheduler. -/
theorem stale_all_iff {g : BuildGraph} (hg : DAGOk g) (m : Nat)
    (hstale : ∀ i, Reach g m i → outOfDate g i = true) :
    ((linearize g m).all (buildNode g) = true ↔ AllOkP g m) := by
  rw [List.all_eq_true]
  constructor
  · intro h j hj
    obtain ⟨hr, hjob⟩ := (jobList_mem hg m j).mp hj
    have hlin : j ∈ linearize g m :=
      (linearize_mem hg m j).mpr ⟨hr, hstale j hr⟩
    have hbn := h j hlin
    simp only [decide_eq_true_eq] at hbn
    cases hb : g.builder j with
    | some r =>
      simp only [buildNode, hb] at hbn
      simp [jobStatus, hb, hbn]
    | none =>
      simp only [isJob, hb, Option.isSome_none, Bool.false_or] at hjob
      simp only [buildNode, hb, hjob, Bool.not_true, Bool.or_false] at hbn
      simp [jobStatus, hb, hbn]
  · intro hall x hx
    have hr := ((linearize_mem hg m x).mp hx).1
    exact buildNode_of_allOk hg hall hr

/-- On all-stale graphs the serial trace is exactly the targets of the
linearization that carry builders, in order, when everything succeeds. -/
theorem serialTrace_filter {g : BuildGraph} (hg : DAGOk g) (m : Nat)
    (hall : AllOkP g m) :
    serialTrace g m = (linearize g m).filter (fun i => (g.builder i).isSome) := by
  have hok : ∀ i ∈ linearize g m, buildNode g i = true := by
    intro i hi
    exact buildNode_of_allOk hg hall ((linearize_mem hg m i).mp hi).1
  have h := buildSeq_trace_exact (linearize g m) ∅ [] hok
    (fun i _ => Finset.not_mem_empty i) (linearize_nodup hg m)
  unfold serialTrace serialOutcome
  exact h.trans (List.nil_append _)

theorem parallel_start_iff {g : BuildGraph} (hg : DAGOk g) (m : Nat)
    (sched : List Nat) (hall : AllOkP g m) (i : Nat) :
    PEvent.start i ∈ (parallelRun g m sched).events ↔
      Reach g m i ∧ (g.builder i).isSome = true := by
  obtain ⟨hinv, ha, hw⟩ := parallelRun_final hg m sched
  constructor
  · intro h
    obtain ⟨hj, hbs⟩ := hinv.startJob i h
    exact ⟨((jobList_mem hg m i).mp hj).1, hbs⟩
  · rintro ⟨hr, hbs⟩
    have hj : i ∈ jobList g m :=
      (jobList_mem hg m i).mpr ⟨hr, by simp [isJob, hbs]⟩
    have hnf := parallelRun_nofail hg m sched hall
    rcases hinv.partition i hj with h | h | h
    · rw [hw] at h; simp at h
    · rw [ha] at h; simp at h
    · exact hnf.sentStarted i (Or.inl h) hbs

/-- The legacy parallel entry point `parallel.root_parallel_build`
(src/sandworm/parallel.py, lines 90-99 and 140-163).  Its `_JobPool.run`
differs from the live `_parallel` pool in two decisive ways.  First, line
99 returns `self._any_failures` UN-NEGATED.  Second, `_any_failures`
starts False (line 44) and is set only inside `_handle_job_status` (line
69), which runs only from `_handle_ready_connection`, i.e. from inside
the `while self._jobs` loop (lines 94-97) over the non-leaf jobs — and
once entered that loop can never complete an iteration:
`_send_job_status` (line 27) puts `job.write_end.fileno()` on the queue,
while `_pending_connections` is keyed by the read-end descriptors of the
waiter connections (lines 46-52), two distinct descriptors of each pipe,
so `self._pending_connections.pop(fileno)` (line 96, no default) raises
KeyError at the first delivered status (and if no status is ever
delivered, `queue.get()` blocks forever).  Hence: with no non-leaf job
the loop body is skipped and the call returns False regardless of what
the leaf builders did; with a non-leaf job the call never returns
normally (modelled as `none`). -/
def rootParallelBuild (g : BuildGraph) (main : Nat) : Option Bool :=
  if (nonLeafJobs g main).isEmpty then some false else none

/-- C2 counterexample graph (staleness): target 0 is an up-to-date file
target carrying a failing builder; target 1 (the build root) is a stale
plain target depending on it. -/
def gC2a : BuildGraph :=
  { deps := mkDeps [[], [0]],
    builder := fun i => if i = 0 then some false else some true,
    exi := fun i => i = 0, lm := fun i => if i = 0 then some 5 else none }

/-- C2 counterexample graph (invoked sets): jobs 0 (failing) and 1
(succeeding) under a phony root 2; everything stale. -/
def gC2b : BuildGraph :=
  { deps := mkDeps [[], [], [0, 1]],
    builder := fun i => if i = 2 then none
      else if i = 0 then some false else some true,
    exi := fun _ => false, lm := fun _ => none }

/-- C2 counterexample graph (legacy path): a single stale root with a
succeeding builder. -/
def gC2c : BuildGraph :=
  { deps := mkDeps [[]], builder := fun _ => some true,
    exi := fun _ => false, lm := fun _ => none }

/-- C2, counterexample: the serial path and both named parallel paths
disagree.  On `gC2a` (an up-to-date dependency with a failing builder) the
serial build succeeds while `parallel_root_build` fails, because the
pre-pass never prunes up-to-date targets; on `gC2b` (a failing sibling)
they invoke different builder sets: the serial runner aborts at target 0
and never runs target 1, while the parallel scheduler runs both leaves;
and on `gC2c` (one stale succeeding target) the serial build returns True
— as does `parallel_root_build` — but the legacy `root_parallel_build`
returns False, since `_JobPool.run` (parallel.py line 99) returns
`_any_failures` without negating it. -/
theorem c2_counterexample :
    (serialResult gC2a 1 = true ∧ parallelResult gC2a 1 [0, 0] = false) ∧
    (serialTrace gC2b 2 = [0] ∧
      PEvent.start 1 ∈ (parallelRun gC2b 2 [0, 0, 0]).events ∧
      parallelResult gC2b 2 [0, 0, 0] = serialResult gC2b 2) ∧
    (outOfDate gC2c 0 = true ∧ serialResult gC2c 0 = true ∧
      parallelResult gC2c 0 [0] = true ∧
      rootParallelBuild gC2c 0 = some false) := by
  decide

/-- C2 (amended): the claim splits by entry point.  For the live parallel
path (`_parallel.parallel_root_build`), restricted to graphs whose
reachable targets are all out-of-date, the serial path (linearize then
serial-run) returns the same overall success boolean under every
completion schedule, and when additionally every job succeeds they invoke
the same set of builders.  For the legacy path
(`parallel.root_parallel_build`, parallel.py 90-99), no agreement holds
at all: any normal return of it is False (`run` returns `_any_failures`
un-negated and its event loop cannot complete an iteration), so it
disagrees with the serial path on every succeeding build. -/
theorem c2_amended_serial_parallel_agree (g : BuildGraph) (m : Nat)
    (sched : List Nat) (hg : DAGOk g)
    (hstale : ∀ i, Reach g m i → outOfDate g i = true) :
    (serialResult g m = parallelResult g m sched ∧
    (AllOkP g m → ∀ i, i ∈ serialTrace g m ↔
      PEvent.start i ∈ (parallelRun g m sched).events)) ∧
    (∀ r, rootParallelBuild g m = some r → r = false) := by
  refine ⟨⟨?_, ?_⟩, ?_⟩
  · rcases Bool.eq_false_or_eq_true (parallelResult g m sched) with hp | hp
    · rw [hp, serialResult_all]
      exact (stale_all_iff hg m hstale).mpr ((parallelResult_iff hg m sched).mp hp)
    · rw [hp, serialResult_all]
      have hnall : ¬AllOkP g m := fun hall => by
        simp [(parallelResult_iff hg m sched).mpr hall] at hp
      rcases Bool.eq_false_or_eq_true ((linearize g m).all (buildNode g)) with h | h
      · exact absurd ((stale_all_iff hg m hstale).mp h) hnall
      · exact h
  · intro hall i
    rw [serialTrace_filter hg m hall, List.mem_filter,
      parallel_start_iff hg m sched hall i, linearize_mem hg m i]
    constructor
    · rintro ⟨⟨hr, _⟩, hbs⟩
      exact ⟨hr, hbs⟩
    · rintro ⟨hr, hbs⟩
      exact ⟨⟨hr, hstale i hr⟩, hbs⟩
  · intro r h
    rw [rootParallelBuild] at h
    split at h
    · exact (Option.some.inj h).symm
    · exact Option.noConfusion h

/-- C1: refuted (code bug).  `_handle_ready_connection` (lines 99-121)
decides whether to submit a satisfied job from the status of the LAST
delivered predecessor only; earlier predecessor failures are forgotten.
On `gC1` target 2 waits on both 0 and 1, target 0's builder fails
(its `(0, false)` completion is delivered), yet under the schedule that
completes 0 first and 1 second, target 2 — a transitive dependent of the
failed target 0 — is still submitted (`start 2` is emitted). -/
theorem c1_failed_predecessor_dependent_still_runs :
    gC1.builder 0 = some false ∧
    0 ∈ waiterSet gC1 2 ∧ 1 ∈ waiterSet gC1 2 ∧
    PEvent.deliver 0 false ∈ (parallelRun gC1 2 [0, 0, 0]).events ∧
    PEvent.start 2 ∈ (parallelRun gC1 2 [0, 0, 0]).events ∧
    parallelResult gC1 2 [0, 0, 0] = false := by
  decide

/-- C3 counterexample: the success half of the claim fails.  On `gC1` the
edge 0 → 2 has both endpoints scheduled as jobs; target 0's only delivered
completion carries `false` (its builder failed), yet target 2's builder
still starts.  So "u's builder completed *successfully* before v starts"
does not hold. -/
theorem c3_counterexample :
    (0 ∈ gC1.deps 2 ∧ isJob gC1 0 = true ∧ isJob gC1 2 = true) ∧
    PEvent.deliver 0 false ∈ (parallelRun gC1 2 [0, 0, 0]).events ∧
    (∀ s, PEvent.deliver 0 s ∈ (parallelRun gC1 2 [0, 0, 0]).events →
      s = false) ∧
    PEvent.start 2 ∈ (parallelRun gC1 2 [0, 0, 0]).events := by
  decide

/-- C3 (amended): the completion-before-start ordering does hold, without
the success qualifier.  Whenever the parallel run's event log contains
`start v`, every token in v's wait set — in particular every dependency of
v that is itself a job — has had some completion (successful or not)
delivered strictly earlier in the log. -/
theorem c3_amended_completion_before_start (g : BuildGraph) (hg : DAGOk g)
    (m : Nat) (sched : List Nat) (pre suf : List PEvent) (v : Nat)
    (hsplit : (parallelRun g m sched).events = pre ++ PEvent.start v :: suf) :
    (∀ u ∈ waiterSet g v, ∃ s, PEvent.deliver u s ∈ pre) ∧
    (∀ u ∈ g.deps v, isJob g u = true → ∃ s, PEvent.deliver u s ∈ pre) := by
  have hinv := (parallelRun_final hg m sched).1
  refine ⟨hinv.startOrder pre v suf hsplit, fun u hu hju => ?_⟩
  exact hinv.startOrder pre v suf hsplit u (ws_of_dep_job hg hu hju)

theorem c3_amended_witness :
    DAGOk gC7 ∧
    (parallelRun gC7 2 [0, 0, 0]).events =
      [PEvent.start 0, PEvent.deliver 0 true, PEvent.start 1,
        PEvent.deliver 1 true, PEvent.start 2, PEvent.deliver 2 true] ∧
    ((∀ u ∈ waiterSet gC7 2,
        ∃ s, PEvent.deliver u s ∈
          [PEvent.start 0, PEvent.deliver 0 true, PEvent.start 1,
            PEvent.deliver 1 true]) ∧
    (∀ u ∈ gC7.deps 2, isJob gC7 u = true →
        ∃ s, PEvent.deliver u s ∈
          [PEvent.start 0, PEvent.deliver 0 true, PEvent.start 1,
            PEvent.deliver 1 true])) := by
  have hg : DAGOk gC7 := dagOkTable_sound [[], [0], [0, 1]] (by decide)
  exact ⟨hg, by decide,
    c3_amended_completion_before_start gC7 hg 2 [0, 0, 0]
      [PEvent.start 0, PEvent.deliver 0 true, PEvent.start 1,
        PEvent.deliver 1 true] [PEvent.deliver 2 true] 2 (by decide)⟩

theorem fullyStale_of_popOrder {g : BuildGraph} (hg : DAGOk g) (m : Nat)
    (h : ∀ i ∈ popOrder g m, outOfDate g i = true) :
    ∀ i, Reach g m i → outOfDate g i = true :=
  fun i hr => h i ((mem_popOrder hg m i).mpr hr)

theorem c2_amended_witness :
    DAGOk gC7 ∧ (∀ i, Reach gC7 2 i → outOfDate gC7 i = true) ∧
    ((serialResult gC7 2 = parallelResult gC7 2 [1, 0, 0] ∧
    (AllOkP gC7 2 → ∀ i, i ∈ serialTrace gC7 2 ↔
      PEvent.start i ∈ (parallelRun gC7 2 [1, 0, 0]).events)) ∧
    (∀ r, rootParallelBuild gC7 2 = some r → r = false)) := by
  have hg : DAGOk gC7 := dagOkTable_sound [[], [0], [0, 1]] (by decide)
  have hs : ∀ i, Reach gC7 2 i → outOfDate gC7 i = true :=
    fullyStale_of_popOrder hg 2 (by decide)
  exact ⟨hg, hs, c2_amended_serial_parallel_agree gC7 2 [1, 0, 0] hg hs⟩

/-- C4 counterexample graph: target 0 is an up-to-date file target (it
exists, has a timestamp and no dependencies) that nonetheless carries a
builder; target 1 is the stale build root depending on it. -/
def gC4 : BuildGraph :=
  { deps := mkDeps [[], [0]],
    builder := fun _ => some true,
    exi := fun i => i = 0, lm := fun i => if i = 0 then some 5 else none }

/-- C4: refuted (code bug).  `populate_job_pre_map` (lines 153-188) never
consults `out_of_date`: it descends into every reachable target.  On
`gC4`, target 0 is up to date (`out_of_date` is false) yet it is assigned
a pipe and a job, its builder is started by the pool, and it sits in its
dependent's wait set — while the serial path's linearization correctly
omits it. -/
theorem c4_up_to_date_target_not_pruned :
    outOfDate gC4 0 = false ∧
    isJob gC4 0 = true ∧
    0 ∈ jobList gC4 1 ∧
    0 ∈ waiterSet gC4 1 ∧
    PEvent.start 0 ∈ (parallelRun gC4 1 [0, 0]).events ∧
    linearize gC4 1 = [1] := by
  decide

/-! ## Cycle detection (src/sandworm/_graph.py)

`Graph.find_cycle` is a recursive DFS over the (possibly cyclic) object
graph: `visited` is a defaultdict of states, `stack` the DFS path
(`__init__` seeds it with the root marked IN_STACK).  `find_cycle` marks
the stack top IN_STACK, walks its dependencies — an IN_STACK dependency
yields the cycle `stack[stack.index(dep):]`, a NOT_VISITED one is pushed
and recursed into, a VISITED one is skipped — then marks the top VISITED
and returns None.  The embedding keeps the stack with its TOP AT THE HEAD
(so Python's `stack` is our list reversed), adds a `fin` accumulator
recording the order in which nodes are marked VISITED (pure
instrumentation, used only in specifications), and replaces the machine
call stack by a fuel argument: `FCRes.out` marks fuel exhaustion, which
we prove unreachable for fuel beyond a closure bound of the graph. -/

inductive VState where
  | notVisited
  | visited
  | inStack
deriving DecidableEq

structure GState where
  visited : Nat → VState
  stack : List Nat
  fin : List Nat

def initGState (root : Nat) : GState :=
  { visited := fun x => if x = root then VState.inStack else VState.notVisited,
    stack := [root], fin := [] }

inductive FCRes where
  | found (c : List Nat)
  | clear
  | out
deriving DecidableEq

/-- Python's `self.stack[self.stack.index(dep):]` (line 28), transported to
the head-is-top representation: everything from the top down to the first
occurrence of `d`, reversed back into bottom-to-top order. -/
def cycSuffix (stack : List Nat) (d : Nat) : List Nat :=
  ((stack.takeWhile fun x => !(x == d)) ++ [d]).reverse

/-- `self.visited[t] = s`. -/
def setV (st : GState) (t : Nat) (s : VState) : GState :=
  { st with visited := fun x => if x = t then s else st.visited x }

/-- Marking the top VISITED on normal return (line 35), recorded in `fin`. -/
def finishV (st : GState) (t : Nat) : GState :=
  { setV st t VState.visited with fin := st.fin ++ [t] }

def fcDeps (g : BuildGraph) (rec : GState → FCRes × GState) :
    List Nat → GState → FCRes × GState
  | [], st => (FCRes.clear, st)
  | d :: rest, st =>
    match st.visited d with
    | VState.inStack => (FCRes.found (cycSuffix st.stack d), st)
    | VState.visited => fcDeps g rec rest st
    | VState.notVisited =>
      match rec { st with stack := d :: st.stack } with
      | (FCRes.clear, st') => fcDeps g rec rest { st' with stack := st'.stack.tail }
      | r => r

def fcNode (g : BuildGraph) : Nat → GState → FCRes × GState
  | 0, st => (FCRes.out, st)
  | fuel + 1, st =>
    match st.stack with
    | [] => (FCRes.clear, st)
    | top :: _ =>
      match fcDeps g (fcNode g fuel) (g.deps top) (setV st top VState.inStack) with
      | (FCRes.clear, st₂) => (FCRes.clear, finishV st₂ top)
      | r => r

/-- `_graph.Graph(root).find_cycle()`, run with enough fuel for a graph
whose reachable edges stay below `n`. -/
def findCycleTop (g : BuildGraph) (n root : Nat) : Option (List Nat) :=
  match fcNode g (n + 1) (initGState root) with
  | (FCRes.found c, _) => some c
  | _ => none

/-- Successive elements step along dependency edges. -/
def cycChainB (g : BuildGraph) : List Nat → Bool
  | [] => true
  | [_] => true
  | a :: b :: t => (g.deps a).contains b && cycChainB g (b :: t)

/-- A genuine dependency cycle: a non-empty list in which each element's
successor is one of its dependencies, and whose first element is a
dependency of its last. -/
def IsCycle (g : BuildGraph) (c : List Nat) : Prop :=
  c ≠ [] ∧ cycChainB g c = true ∧
    c.head?.getD 0 ∈ g.deps (c.getLast?.getD 0)

instance (g : BuildGraph) (c : List Nat) : Decidable (IsCycle g c) :=
  inferInstanceAs (Decidable (c ≠ [] ∧ cycChainB g c = true ∧
    c.head?.getD 0 ∈ g.deps (c.getLast?.getD 0)))

/-- Every finished node's dependencies were finished strictly earlier. -/
def FinClosed (g : BuildGraph) (fin : List Nat) : Prop :=
  ∀ pre v suf, fin = pre ++ v :: suf → ∀ d ∈ g.deps v, d ∈ pre

/-- Executable closedness check for table graphs. -/
def closedTable (table : List (List Nat)) : Bool :=
  table.all fun row => row.all fun j => j < table.length

theorem closedTable_sound (table : List (List Nat))
    (h : closedTable table = true) :
    Closed { deps := mkDeps table, builder := b, exi := e, lm := l } table.length := by
  intro i j hi hj
  simp only [closedTable, List.all_eq_true, decide_eq_true_eq] at h
  simp only [mkDeps] at hj
  cases hrow : table.get? i with
  | none => rw [hrow] at hj; simp at hj
  | some row =>
    rw [hrow] at hj
    simp only [Option.getD_some] at hj
    exact h row (List.get?_mem hrow) j hj

/-- Stack path property: each entry is a dependency of the one below it. -/
def stkChainB (g : BuildGraph) : List Nat → Bool
  | [] => true
  | [_] => true
  | a :: b :: t => (g.deps b).contains a && stkChainB g (b :: t)

theorem nodup_length_le {l : List Nat} {n : Nat} (hnd : l.Nodup)
    (hb : ∀ x ∈ l, x < n) : l.length ≤ n := by
  have h₁ : l.toFinset.card = l.length := List.toFinset_card_of_nodup hnd
  have h₂ : l.toFinset ⊆ Finset.range n := by
    intro x hx
    rw [List.mem_toFinset] at hx
    exact Finset.mem_range.mpr (hb x hx)
  have := Finset.card_le_card h₂
  rw [h₁, Finset.card_range] at this
  exact this

theorem takeWhile_cons_of_ne {a d : Nat} (t : List Nat) (ha : a ≠ d) :
    ((a :: t).takeWhile fun x => !(x == d)) =
      a :: (t.takeWhile fun x => !(x == d)) := by
  rw [List.takeWhile_cons, if_pos]
  simp [ha]

theorem takeWhile_cons_self {d : Nat} (t : List Nat) :
    ((d :: t).takeWhile fun x => !(x == d)) = [] := by
  rw [List.takeWhile_cons, if_neg]
  simp

theorem takeWhile_mem_split {d : Nat} :
    ∀ {l : List Nat}, d ∈ l →
      ∃ suf, l = (l.takeWhile fun x => !(x == d)) ++ d :: suf := by
  intro l
  induction l with
  | nil => intro h; exact absurd h (List.not_mem_nil d)
  | cons a t ih =>
    intro h
    by_cases ha : a = d
    · subst ha
      exact ⟨t, by rw [takeWhile_cons_self]; rfl⟩
    · have hd : d ∈ t := by
        rcases List.mem_cons.mp h with h' | h'
        · exact absurd h'.symm ha
        · exact h'
      obtain ⟨suf, hsuf⟩ := ih hd
      refine ⟨suf, ?_⟩
      rw [takeWhile_cons_of_ne t ha, List.cons_append]
      exact congrArg (a :: ·) hsuf

theorem cycChainB_iff (g : BuildGraph) :
    ∀ c, cycChainB g c = true ↔ List.Chain' (fun u w => w ∈ g.deps u) c := by
  intro c
  induction c with
  | nil => simp [cycChainB]
  | cons a t ih =>
    cases t with
    | nil => simp [cycChainB]
    | cons b t' =>
      rw [List.chain'_cons, ← ih]
      simp only [cycChainB, Bool.and_eq_true, List.elem_iff]

theorem stkChainB_iff (g : BuildGraph) :
    ∀ c, stkChainB g c = true ↔ List.Chain' (fun u w => u ∈ g.deps w) c := by
  intro c
  induction c with
  | nil => simp [stkChainB]
  | cons a t ih =>
    cases t with
    | nil => simp [stkChainB]
    | cons b t' =>
      rw [List.chain'_cons, ← ih]
      simp only [stkChainB, Bool.and_eq_true, List.elem_iff]

theorem stkChainB_prefix (g : BuildGraph) (P : List Nat) (x : Nat)
    (suf : List Nat) (h : stkChainB g (P ++ x :: suf) = true) :
    stkChainB g (P ++ [x]) = true := by
  rw [stkChainB_iff] at h ⊢
  refine List.Chain'.prefix h ⟨suf, ?_⟩
  rw [List.append_assoc, List.singleton_append]

theorem stkChainB_rev_cyc (g : BuildGraph) (l : List Nat)
    (h : stkChainB g l = true) : cycChainB g l.reverse = true := by
  rw [stkChainB_iff] at h
  rw [cycChainB_iff, List.chain'_reverse]
  exact h

/-- The list Python returns on an IN_STACK hit is a genuine cycle. -/
theorem cycSuffix_isCycle (g : BuildGraph) {stack : List Nat} {top d : Nat}
    {rest : List Nat} (hshape : stack = top :: rest)
    (hchain : stkChainB g stack = true) (hmem : d ∈ stack)
    (hdep : d ∈ g.deps top) : IsCycle g (cycSuffix stack d) := by
  obtain ⟨suf, hsuf⟩ := takeWhile_mem_split hmem
  refine ⟨by simp [cycSuffix], ?_, ?_⟩
  · apply stkChainB_rev_cyc
    exact stkChainB_prefix g _ d suf (hsuf ▸ hchain)
  · have hhead : (cycSuffix stack d).head?.getD 0 = d := by
      simp [cycSuffix, List.head?_reverse]
    have hlast : (cycSuffix stack d).getLast?.getD 0 = top := by
      rw [cycSuffix, List.getLast?_reverse]
      by_cases htd : top = d
      · subst htd
        rw [hshape, takeWhile_cons_self]
        rfl
      · rw [hshape, takeWhile_cons_of_ne rest htd]
        rfl
    rw [hhead, hlast]
    exact hdep

/-- Entry invariant of `find_cycle` (the callee will mark the head of the
stack IN_STACK itself, matching lines 22-23): the head is the node to
process, everything below it is IN_STACK, the stack is a dependency path
without repeats staying under the closure bound `n`, and the `fin`
instrumentation agrees with the VISITED states. -/
structure NEnt (g : BuildGraph) (n : Nat) (st : GState) (top : Nat)
    (rest : List Nat) : Prop where
  shape : st.stack = top :: rest
  nodup : st.stack.Nodup
  bound : ∀ x ∈ st.stack, x < n
  chain : stkChainB g st.stack = true
  isSub : ∀ x, st.visited x = VState.inStack → x ∈ st.stack
  restIs : ∀ x ∈ rest, st.visited x = VState.inStack
  topNx : st.visited top ≠ VState.visited
  finIff : ∀ x, st.visited x = VState.visited ↔ x ∈ st.fin
  finNd : st.fin.Nodup
  finCl : FinClosed g st.fin

/-- Exit facts of a clean (no-cycle) `find_cycle` return: the stack is
restored, the processed head moved to VISITED, no new IN_STACK marks
survive, and the finish order remains dependency-closed. -/
structure NExit (g : BuildGraph) (st st' : GState) (top : Nat) : Prop where
  stkEq : st'.stack = st.stack
  isEq : ∀ x, st'.visited x = VState.inStack ↔
    (st.visited x = VState.inStack ∧ x ≠ top)
  visMono : ∀ x, st.visited x = VState.visited → st'.visited x = VState.visited
  topV : st'.visited top = VState.visited
  finIff : ∀ x, st'.visited x = VState.visited ↔ x ∈ st'.fin
  finNd : st'.fin.Nodup
  finCl : FinClosed g st'.fin

/-- Loop invariant of the dependency walk (lines 25-33): as the entry
invariant, but the head is already marked IN_STACK and `l` is the suffix
of its dependencies still to examine. -/
structure DEnt (g : BuildGraph) (n : Nat) (st : GState) (top : Nat)
    (rest l : List Nat) : Prop where
  shape : st.stack = top :: rest
  nodup : st.stack.Nodup
  bound : ∀ x ∈ st.stack, x < n
  chain : stkChainB g st.stack = true
  isIff : ∀ x, st.visited x = VState.inStack ↔ x ∈ st.stack
  finIff : ∀ x, st.visited x = VState.visited ↔ x ∈ st.fin
  finNd : st.fin.Nodup
  finCl : FinClosed g st.fin
  ldep : ∀ d ∈ l, d ∈ g.deps top

/-- Exit facts of a clean dependency walk: the stack is restored, the
IN_STACK set is unchanged, and every examined dependency ended VISITED. -/
structure DExit (g : BuildGraph) (st st' : GState) (l : List Nat) : Prop where
  stkEq : st'.stack = st.stack
  isIff : ∀ x, st'.visited x = VState.inStack ↔ x ∈ st'.stack
  visMono : ∀ x, st.visited x = VState.visited → st'.visited x = VState.visited
  allVis : ∀ d ∈ l, st'.visited d = VState.visited
  finIff : ∀ x, st'.visited x = VState.visited ↔ x ∈ st'.fin
  finNd : st'.fin.Nodup
  finCl : FinClosed g st'.fin

def NodeConc (g : BuildGraph) (st : GState) (top : Nat)
    (r : FCRes × GState) : Prop :=
  match r with
  | (FCRes.out, _) => False
  | (FCRes.found c, _) => IsCycle g c
  | (FCRes.clear, st') => NExit g st st' top

def DepsConc (g : BuildGraph) (st : GState) (l : List Nat)
    (r : FCRes × GState) : Prop :=
  match r with
  | (FCRes.out, _) => False
  | (FCRes.found c, _) => IsCycle g c
  | (FCRes.clear, st') => DExit g st st' l

theorem finClosed_append (g : BuildGraph) (fin : List Nat) (top : Nat)
    (hcl : FinClosed g fin) (hdeps : ∀ d ∈ g.deps top, d ∈ fin) :
    FinClosed g (fin ++ [top]) := by
  intro pre v suf hsplit d hd
  rcases List.eq_nil_or_concat suf with hsuf | ⟨suf', b, hsuf⟩
  · subst hsuf
    obtain ⟨hfp, hv⟩ := List.append_inj' hsplit rfl
    simp only [List.cons.injEq] at hv
    subst hfp
    rw [← hv.1] at hd
    exact hdeps d hd
  · subst hsuf
    have hsplit' : fin ++ [top] = (pre ++ v :: suf') ++ [b] := by
      rw [hsplit]
      simp
    obtain ⟨hfin, _⟩ := List.append_inj' hsplit' rfl
    exact hcl pre v suf' hfin d hd

theorem fcDeps_go (g : BuildGraph) (n : Nat) (hc : Closed g n) (fuel : Nat)
    (hrec : ∀ st top rest, NEnt g n st top rest →
      n + 1 ≤ fuel + st.stack.length →
      NodeConc g st top (fcNode g fuel st)) :
    ∀ (l : List Nat) (st : GState) (top : Nat) (rest : List Nat),
      DEnt g n st top rest l → n ≤ fuel + st.stack.length →
      DepsConc g st l (fcDeps g (fcNode g fuel) l st) := by
  intro l
  induction l with
  | nil =>
    intro st top rest hD _
    show DExit g st st []
    exact ⟨rfl, hD.isIff, fun x h => h,
      fun d hd => absurd hd (List.not_mem_nil d), hD.finIff, hD.finNd, hD.finCl⟩
  | cons d rest' ih =>
    intro st top rest hD hfuel
    have hdmem : d ∈ g.deps top := hD.ldep d (List.mem_cons_self d rest')
    cases hvd : st.visited d with
    | inStack =>
      have heq : fcDeps g (fcNode g fuel) (d :: rest') st =
          (FCRes.found (cycSuffix st.stack d), st) := by
        simp only [fcDeps, hvd]
      rw [heq]
      show IsCycle g (cycSuffix st.stack d)
      exact cycSuffix_isCycle g hD.shape hD.chain ((hD.isIff d).mp hvd) hdmem
    | visited =>
      have heq : fcDeps g (fcNode g fuel) (d :: rest') st =
          fcDeps g (fcNode g fuel) rest' st := by
        simp only [fcDeps, hvd]
      rw [heq]
      have hD' : DEnt g n st top rest rest' :=
        ⟨hD.shape, hD.nodup, hD.bound, hD.chain, hD.isIff, hD.finIff, hD.finNd,
          hD.finCl, fun d' hd' => hD.ldep d' (List.mem_cons_of_mem d hd')⟩
      have hres := ih st top rest hD' hfuel
      cases hr : fcDeps g (fcNode g fuel) rest' st with
      | mk res stf =>
        rw [hr] at hres
        cases res with
        | out => exact hres
        | found c => exact hres
        | clear =>
          refine ⟨hres.stkEq, hres.isIff, hres.visMono, ?_, hres.finIff,
            hres.finNd, hres.finCl⟩
          intro d' hd'
          rcases List.mem_cons.mp hd' with h | h
          · subst h
            exact hres.visMono d' hvd
          · exact hres.allVis d' h
    | notVisited =>
      have hdn : d ∉ st.stack := by
        intro h
        rw [(hD.isIff d).mpr h] at hvd
        exact VState.noConfusion hvd
      have hN : NEnt g n { st with stack := d :: st.stack } d st.stack := by
        refine ⟨rfl, List.nodup_cons.mpr ⟨hdn, hD.nodup⟩, ?_, ?_, ?_, ?_, ?_,
          hD.finIff, hD.finNd, hD.finCl⟩
        · intro x hx
          rcases List.mem_cons.mp hx with h | h
          · subst h
            exact hc top x (hD.bound top (hD.shape ▸ List.mem_cons_self top rest)) hdmem
          · exact hD.bound x h
        · show stkChainB g (d :: st.stack) = true
          rw [hD.shape]
          simp only [stkChainB, Bool.and_eq_true, List.elem_iff]
          exact ⟨hdmem, by rw [← hD.shape]; exact hD.chain⟩
        · intro x hx
          exact List.mem_cons_of_mem d ((hD.isIff x).mp hx)
        · intro x hx
          exact (hD.isIff x).mpr hx
        · show st.visited d ≠ VState.visited
          rw [hvd]
          intro h
          exact VState.noConfusion h
      have hfuel₁ : n + 1 ≤ fuel +
          (GState.stack { st with stack := d :: st.stack }).length := by
        simp only [List.length_cons]
        omega
      have hnode := hrec { st with stack := d :: st.stack } d st.stack hN hfuel₁
      have heq : fcDeps g (fcNode g fuel) (d :: rest') st =
          (match fcNode g fuel { st with stack := d :: st.stack } with
           | (FCRes.clear, st') =>
               fcDeps g (fcNode g fuel) rest' { st' with stack := st'.stack.tail }
           | r => r) := by
        simp only [fcDeps, hvd]
      rw [heq]
      cases hr : fcNode g fuel { st with stack := d :: st.stack } with
      | mk res st' =>
        rw [hr] at hnode
        cases res with
        | out => exact hnode.elim
        | found c => exact hnode
        | clear =>
          have hNx : NExit g { st with stack := d :: st.stack } st' d := hnode
          have hstk3 : ({ st' with stack := st'.stack.tail } : GState).stack
              = st.stack := by
            show st'.stack.tail = st.stack
            rw [hNx.stkEq]
            rfl
          have hD' : DEnt g n { st' with stack := st'.stack.tail } top rest rest' := by
            refine ⟨by rw [hstk3, hD.shape], by rw [hstk3]; exact hD.nodup,
              by rw [hstk3]; exact hD.bound, by rw [hstk3]; exact hD.chain,
              ?_, hNx.finIff, hNx.finNd, hNx.finCl,
              fun d' hd' => hD.ldep d' (List.mem_cons_of_mem d hd')⟩
            intro x
            rw [hstk3]
            show st'.visited x = VState.inStack ↔ x ∈ st.stack
            rw [hNx.isEq x]
            constructor
            · intro hx
              exact (hD.isIff x).mp hx.1
            · intro hx
              refine ⟨(hD.isIff x).mpr hx, ?_⟩
              intro h
              exact hdn (h ▸ hx)
          have hres := ih { st' with stack := st'.stack.tail } top rest hD'
            (by rw [hstk3]; exact hfuel)
          show DepsConc g st (d :: rest')
            (fcDeps g (fcNode g fuel) rest' { st' with stack := st'.stack.tail })
          cases hr2 : fcDeps g (fcNode g fuel) rest' { st' with stack := st'.stack.tail } with
          | mk res₂ stf =>
            rw [hr2] at hres
            cases res₂ with
            | out => exact hres
            | found c => exact hres
            | clear =>
              refine ⟨by rw [hres.stkEq, hstk3], hres.isIff, ?_, ?_,
                hres.finIff, hres.finNd, hres.finCl⟩
              · intro x hxv
                exact hres.visMono x (hNx.visMono x hxv)
              · intro d' hd'
                rcases List.mem_cons.mp hd' with h | h
                · subst h
                  exact hres.visMono d' hNx.topV
                · exact hres.allVis d' h

theorem fcNode_go (g : BuildGraph) (n : Nat) (hc : Closed g n) :
    ∀ (fuel : Nat) (st : GState) (top : Nat) (rest : List Nat),
      NEnt g n st top rest → n + 1 ≤ fuel + st.stack.length →
      NodeConc g st top (fcNode g fuel st) := by
  intro fuel
  induction fuel with
  | zero =>
    intro st top rest hN hfuel
    exfalso
    have := nodup_length_le hN.nodup hN.bound
    omega
  | succ fuel ih =>
    intro st top rest hN hfuel
    have heq : fcNode g (fuel + 1) st =
        (match fcDeps g (fcNode g fuel) (g.deps top) (setV st top VState.inStack) with
         | (FCRes.clear, st₂) => (FCRes.clear, finishV st₂ top)
         | r => r) := by
      conv_lhs => rw [fcNode, hN.shape]
    rw [heq]
    have htopmem : top ∈ st.stack := hN.shape ▸ List.mem_cons_self top rest
    have hD : DEnt g n (setV st top VState.inStack) top rest (g.deps top) := by
      refine ⟨hN.shape, hN.nodup, hN.bound, hN.chain, ?_, ?_, hN.finNd, hN.finCl,
        fun d hd => hd⟩
      · intro x
        show (if x = top then VState.inStack else st.visited x) = VState.inStack ↔
          x ∈ st.stack
        by_cases hx : x = top
        · subst hx
          simp only [if_pos rfl]
          exact ⟨fun _ => htopmem, fun _ => rfl⟩
        · rw [if_neg hx]
          constructor
          · exact fun h => hN.isSub x h
          · intro h
            rcases List.mem_cons.mp (hN.shape ▸ h) with h' | h'
            · exact absurd h' hx
            · exact hN.restIs x h'
      · intro x
        show (if x = top then VState.inStack else st.visited x) = VState.visited ↔
          x ∈ st.fin
        by_cases hx : x = top
        · subst hx
          rw [if_pos rfl]
          constructor
          · intro h
            exact absurd h (by intro h'; exact VState.noConfusion h')
          · intro h
            exact absurd ((hN.finIff x).mpr h) hN.topNx
        · rw [if_neg hx]
          exact hN.finIff x
    have hres := fcDeps_go g n hc fuel ih (g.deps top) (setV st top VState.inStack)
      top rest hD (by show n ≤ fuel + st.stack.length; omega)
    cases hr : fcDeps g (fcNode g fuel) (g.deps top) (setV st top VState.inStack) with
    | mk res st₂ =>
      rw [hr] at hres
      cases res with
      | out => exact hres.elim
      | found c => exact hres
      | clear =>
        have hx : DExit g (setV st top VState.inStack) st₂ (g.deps top) := hres
        show NExit g st (finishV st₂ top) top
        have hstk2 : st₂.stack = st.stack := hx.stkEq
        have hvis2 : ∀ y, y ≠ top → (st₂.visited y = VState.inStack ↔
            st.visited y = VState.inStack) := by
          intro y hy
          rw [hx.isIff y, hstk2]
          constructor
          · intro h
            rcases List.mem_cons.mp (hN.shape ▸ h) with h' | h'
            · exact absurd h' hy
            · exact hN.restIs y h'
          · exact fun h => hN.isSub y h
        have htopfin : top ∉ st₂.fin := by
          intro h
          have hv := (hx.finIff top).mpr h
          have : st₂.visited top = VState.inStack := (hx.isIff top).mpr
            (by rw [hstk2]; exact htopmem)
          rw [hv] at this
          exact VState.noConfusion this
        refine ⟨by show st₂.stack = st.stack; exact hstk2, ?_, ?_, ?_, ?_, ?_, ?_⟩
        · intro x
          show (if x = top then VState.visited else st₂.visited x) = VState.inStack ↔
            (st.visited x = VState.inStack ∧ x ≠ top)
          by_cases hxt : x = top
          · subst hxt
            rw [if_pos rfl]
            constructor
            · intro h
              exact absurd h (by intro h'; exact VState.noConfusion h')
            · intro h
              exact absurd rfl h.2
          · rw [if_neg hxt]
            rw [hvis2 x hxt]
            exact ⟨fun h => ⟨h, hxt⟩, fun h => h.1⟩
        · intro x hxv
          have hxt : x ≠ top := by
            intro h
            exact hN.topNx (h ▸ hxv)
          show (if x = top then VState.visited else st₂.visited x) = VState.visited
          rw [if_neg hxt]
          apply hx.visMono
          show (if x = top then VState.inStack else st.visited x) = VState.visited
          rw [if_neg hxt]
          exact hxv
        · show (if top = top then VState.visited else st₂.visited top) = VState.visited
          rw [if_pos rfl]
        · intro x
          show (if x = top then VState.visited else st₂.visited x) = VState.visited ↔
            x ∈ st₂.fin ++ [top]
          by_cases hxt : x = top
          · subst hxt
            rw [if_pos rfl]
            simp
          · rw [if_neg hxt]
            rw [hx.finIff x]
            simp [hxt]
        · show (st₂.fin ++ [top]).Nodup
          simp [List.nodup_append, hx.finNd, htopfin]
        · show FinClosed g (st₂.fin ++ [top])
          apply finClosed_append g st₂.fin top hx.finCl
          intro d hd
          exact (hx.finIff d).mp (hx.allVis d hd)

theorem initGState_NEnt (g : BuildGraph) (n main : Nat) (hm : main < n) :
    NEnt g n (initGState main) main [] := by
  refine ⟨rfl, by simp [initGState], ?_, rfl, ?_, ?_, ?_, ?_, List.nodup_nil, ?_⟩
  · intro x hx
    have hxm : x = main := by simp [initGState] at hx; exact hx
    exact hxm ▸ hm
  · intro x hx
    show x ∈ [main]
    by_cases h : x = main
    · simp [h]
    · simp only [initGState, if_neg h] at hx
      exact absurd hx (by intro h'; exact VState.noConfusion h')
  · intro x hx
    exact absurd hx (List.not_mem_nil x)
  · show (if main = main then VState.inStack else VState.notVisited) ≠ VState.visited
    rw [if_pos rfl]
    intro h
    exact VState.noConfusion h
  · intro x
    show (if x = main then VState.inStack else VState.notVisited) = VState.visited ↔
      x ∈ ([] : List Nat)
    constructor
    · intro h
      by_cases hx : x = main
      · rw [if_pos hx] at h
        exact VState.noConfusion h
      · rw [if_neg hx] at h
        exact VState.noConfusion h
    · intro h
      exact absurd h (List.not_mem_nil x)
  · intro pre v suf h
    exact absurd h (by cases pre <;> simp [initGState])

theorem chainB_append_last (g : BuildGraph) :
    ∀ (l : List Nat) (a x : Nat), cycChainB g (a :: l) = true →
      x ∈ g.deps ((a :: l).getLast?.getD 0) →
      cycChainB g ((a :: l) ++ [x]) = true := by
  intro l
  induction l with
  | nil =>
    intro a x hch hx
    simp only [List.getLast?_singleton, Option.getD_some] at hx
    simp only [List.cons_append, List.nil_append, cycChainB, Bool.and_eq_true,
      List.elem_iff]
    exact ⟨hx, trivial⟩
  | cons b t ih =>
    intro a x hch hx
    rw [List.getLast?_cons_cons] at hx
    simp only [cycChainB, Bool.and_eq_true] at hch
    have := ih b x hch.2 hx
    simp only [List.cons_append, cycChainB, Bool.and_eq_true] at this ⊢
    exact ⟨hch.1, this⟩

theorem dag_desc (g : BuildGraph) (hg : DAGOk g) :
    ∀ (l : List Nat) (a : Nat), cycChainB g (a :: l) = true →
      (a :: l).getLast?.getD 0 ≤ a := by
  intro l
  induction l with
  | nil => intro a _; simp
  | cons b t ih =>
    intro a hch
    simp only [cycChainB, Bool.and_eq_true, List.elem_iff] at hch
    rw [List.getLast?_cons_cons]
    exact Nat.le_trans (ih b hch.2) (Nat.le_of_lt (hg a b hch.1))

theorem dag_no_cycle (g : BuildGraph) (hg : DAGOk g) (c : List Nat)
    (hcyc : IsCycle g c) : False := by
  obtain ⟨hne, hch, hclose⟩ := hcyc
  cases c with
  | nil => exact hne rfl
  | cons a l =>
    simp only [List.head?_cons, Option.getD_some] at hclose
    have h₁ := hg _ a hclose
    have h₂ := dag_desc g hg l a hch
    omega

theorem finClosed_dep_mem (g : BuildGraph) (fin : List Nat)
    (hcl : FinClosed g fin) {v d : Nat} (hv : v ∈ fin) (hd : d ∈ g.deps v) :
    d ∈ fin := by
  obtain ⟨pre, suf, h⟩ := List.append_of_mem hv
  have := hcl pre v suf h d hd
  rw [h]
  exact List.mem_append_left _ this

theorem reach_mem_fin (g : BuildGraph) (fin : List Nat)
    (hcl : FinClosed g fin) {root x : Nat} (hr : Reach g root x)
    (hroot : root ∈ fin) : x ∈ fin := by
  induction hr with
  | refl i => exact hroot
  | step hd _ ih => exact ih (finClosed_dep_mem g fin hcl hroot hd)

theorem finClosed_no_cycle (g : BuildGraph) (fin : List Nat)
    (hcl : FinClosed g fin) (hnd : fin.Nodup) :
    ∀ c, IsCycle g c → c.head?.getD 0 ∈ fin → False := by
  have step : ∀ pre v suf c, fin = pre ++ v :: suf → IsCycle g c →
      c.head?.getD 0 = v →
      ∃ w c', w ∈ pre ∧ IsCycle g c' ∧ c'.head?.getD 0 = w := by
    intro pre v suf c hsplit hcyc hh
    obtain ⟨hne, hch, hclose⟩ := hcyc
    cases c with
    | nil => exact absurd rfl hne
    | cons a t =>
      simp only [List.head?_cons, Option.getD_some] at hh hclose
      cases t with
      | nil =>
        simp only [List.getLast?_singleton, Option.getD_some] at hclose
        have hvpre : v ∈ pre := hcl pre v suf hsplit v (hh ▸ hclose)
        have hvn : v ∉ pre := by
          have := hsplit ▸ hnd
          rw [List.nodup_middle] at this
          have := (List.nodup_cons.mp this).1
          intro hmem
          exact this (List.mem_append_left _ hmem)
        exact absurd hvpre hvn
      | cons b t' =>
        simp only [cycChainB, Bool.and_eq_true, List.elem_iff] at hch
        have hbpre : b ∈ pre := hcl pre v suf hsplit b (hh ▸ hch.1)
        rw [List.getLast?_cons_cons] at hclose
        refine ⟨b, (b :: t') ++ [v], hbpre, ⟨by simp, ?_, ?_⟩, by simp⟩
        · exact chainB_append_last g t' b v hch.2 (hh ▸ hclose)
        · rw [List.getLast?_concat]
          simp only [List.cons_append, List.head?_cons, Option.getD_some]
          exact hh ▸ hch.1
  have main : ∀ k pre v suf c, pre.length ≤ k → fin = pre ++ v :: suf →
      IsCycle g c → c.head?.getD 0 = v → False := by
    intro k
    induction k with
    | zero =>
      intro pre v suf c hk hsplit hcyc hh
      obtain ⟨w, _, hw, _, _⟩ := step pre v suf c hsplit hcyc hh
      have : pre = [] := List.eq_nil_of_length_eq_zero (Nat.le_zero.mp hk)
      subst this
      exact absurd hw (List.not_mem_nil w)
    | succ k ihk =>
      intro pre v suf c hk hsplit hcyc hh
      obtain ⟨w, c', hw, hc', hh'⟩ := step pre v suf c hsplit hcyc hh
      obtain ⟨A, B, hAB⟩ := List.append_of_mem hw
      have hsplit' : fin = A ++ w :: (B ++ v :: suf) := by
        rw [hsplit, hAB]
        simp
      have hlen : A.length ≤ k := by
        have := congrArg List.length hAB
        simp at this
        omega
      exact ihk A w (B ++ v :: suf) c' hlen hsplit' hc' hh'
  intro c hcyc hmem
  obtain ⟨pre, suf, hsplit⟩ := List.append_of_mem hmem
  exact main pre.length pre _ suf c le_rfl hsplit hcyc rfl

/-- DAGs pass the cycle check: `find_cycle` returns None. -/
theorem findCycleTop_dag (g : BuildGraph) (n main : Nat) (hg : DAGOk g)
    (hm : main < n) : findCycleTop g n main = none := by
  have hc : Closed g n := fun i j hi hj => Nat.lt_trans (hg i j hj) hi
  have hres := fcNode_go g n hc (n + 1) (initGState main) main []
    (initGState_NEnt g n main hm) (by simp [initGState])
  rw [findCycleTop]
  cases hr : fcNode g (n + 1) (initGState main) with
  | mk res st' =>
    rw [hr] at hres
    cases res with
    | out => exact hres.elim
    | found c => exact absurd hres (fun h => dag_no_cycle g hg c h)
    | clear => rfl

/-- Completeness: a cycle reachable from the root is detected. -/
theorem findCycleTop_complete (g : BuildGraph) (n main : Nat)
    (hc : Closed g n) (hm : main < n) (c : List Nat) (hcyc : IsCycle g c)
    (hr : Reach g main (c.head?.getD 0)) :
    ∃ c', findCycleTop g n main = some c' ∧ IsCycle g c' := by
  have hres := fcNode_go g n hc (n + 1) (initGState main) main []
    (initGState_NEnt g n main hm) (by simp [initGState])
  rw [findCycleTop]
  cases hfc : fcNode g (n + 1) (initGState main) with
  | mk res st' =>
    rw [hfc] at hres
    cases res with
    | out => exact hres.elim
    | found c' => exact ⟨c', rfl, hres⟩
    | clear =>
      exfalso
      have hNx : NExit g (initGState main) st' main := hres
      have hmainfin : main ∈ st'.fin := (hNx.finIff main).mp hNx.topV
      have hcfin : c.head?.getD 0 ∈ st'.fin :=
        reach_mem_fin g st'.fin hNx.finCl hr hmainfin
      exact finClosed_no_cycle g st'.fin hNx.finCl hNx.finNd c hcyc hcfin

/-- `core.root_build` (lines 44-59), serial path, returning the success
boolean together with the builder-invocation trace: cycle check first,
then the `out_of_date` gate, then linearize + serial run.  `n` is any
closure bound of the graph (Python needs none: its recursion runs on the
machine stack). -/
def rootBuild (g : BuildGraph) (n main : Nat) : Bool × List Nat :=
  match findCycleTop g n main with
  | some _ => (false, [])
  | none =>
    if outOfDate g main then (serialResult g main, serialTrace g main)
    else (true, [])

/-- C5 witness graph: two targets depending on each other. -/
def gC5 : BuildGraph :=
  { deps := mkDeps [[1], [0]], builder := fun _ => some true,
    exi := fun _ => false, lm := fun _ => none }

/-- C5: on any graph with a dependency cycle reachable from the build
root, the cycle check (run to completion, before any build step) reports
a genuine cycle, and `root_build` returns False with an empty
builder-invocation trace: no builder of any target is invoked. -/
theorem c5_reachable_cycle_aborts (g : BuildGraph) (n main : Nat)
    (hc : Closed g n) (hm : main < n) (c : List Nat) (hcyc : IsCycle g c)
    (hr : Reach g main (c.head?.getD 0)) :
    (∃ c', findCycleTop g n main = some c' ∧ IsCycle g c') ∧
    rootBuild g n main = (false, []) := by
  obtain ⟨c', hfind, hcyc'⟩ := findCycleTop_complete g n main hc hm c hcyc hr
  refine ⟨⟨c', hfind, hcyc'⟩, ?_⟩
  rw [rootBuild, hfind]

theorem c5_witness :
    Closed gC5 2 ∧ 0 < 2 ∧ IsCycle gC5 [0, 1] ∧ Reach gC5 0 0 ∧
    ((∃ c', findCycleTop gC5 2 0 = some c' ∧ IsCycle gC5 c') ∧
      rootBuild gC5 2 0 = (false, [])) := by
  have hc : Closed gC5 2 := closedTable_sound [[1], [0]] (by decide)
  exact ⟨hc, by decide, by decide, Reach.refl 0,
    c5_reachable_cycle_aborts gC5 2 0 hc (by decide) [0, 1] (by decide)
      (Reach.refl 0)⟩

/-! ## make_clean (src/sandworm/core.py lines 62-71) -/

/-- The concatenated build sequence: clean targets in reverse registration
order, each linearized (`sequence += _linearize(t)`). -/
def cleanSeq (g : BuildGraph) (cleans : List Nat) : List Nat :=
  cleans.reverse.foldl (fun acc t => acc ++ linearize g t) []

/-- `core.make_clean`: cycle-check every clean target (aborting on the
first cyclic one), then run the single concatenated sequence through the
serial runner, which stops at the first failure.  Returns the success
boolean and the builder-invocation trace. -/
def makeClean (g : BuildGraph) (n : Nat) (cleans : List Nat) : Bool × List Nat :=
  if cleans.all (fun t => (findCycleTop g n t).isNone) then
    ((buildSeqFull g (cleanSeq g cleans) ∅ []).1,
      (buildSeqFull g (cleanSeq g cleans) ∅ []).2.2)
  else (false, [])

theorem foldl_append_all (g : BuildGraph) (p : Nat → Bool) :
    ∀ (L : List Nat) (acc : List Nat),
      (L.foldl (fun a t => a ++ linearize g t) acc).all p =
        (acc.all p && L.all fun t => (linearize g t).all p) := by
  intro L
  induction L with
  | nil => intro acc; simp
  | cons t L' ih =>
    intro acc
    simp only [List.foldl_cons, ih, List.all_append, List.all_cons,
      Bool.and_assoc]

theorem cleanSeq_all (g : BuildGraph) (p : Nat → Bool) (cleans : List Nat) :
    (cleanSeq g cleans).all p = cleans.all fun t => (linearize g t).all p := by
  rw [cleanSeq, foldl_append_all]
  simp

/-- C8 counterexample graph: two independent stale clean targets, the
later-registered one (`1`) failing. -/
def gC8 : BuildGraph :=
  { deps := mkDeps [[], []],
    builder := fun i => if i = 1 then some false else some true,
    exi := fun _ => false, lm := fun _ => none }

/-- C8 counterexample: with clean targets registered as [0, 1], target 1
(processed first, in reverse registration order) fails, and `make_clean`
then never invokes target 0's builder at all — the claim that every clean
target is run is false, because the single serial pass over the one
concatenated sequence aborts at the first failure. -/
theorem c8_counterexample :
    makeClean gC8 2 [0, 1] = (false, [1]) ∧ gC8.builder 0 = some true ∧
    outOfDate gC8 0 = true ∧ (0 : Nat) ∉ (makeClean gC8 2 [0, 1]).2 := by
  decide

/-- C8 (amended): on an acyclic graph `make_clean` cycle-checks every
clean target (all pass), then runs the serial runner once over the
concatenation of the linearizations taken in strict reverse registration
order.  The returned boolean equals the AND of the per-clean-target
results (all stale reachable targets build successfully); but a clean
target is only guaranteed to be run when no earlier builder fails: when
every builder in the concatenated sequence succeeds, every target of the
sequence carrying a builder is invoked. -/
theorem c8_make_clean_amended (g : BuildGraph) (n : Nat) (cleans : List Nat)
    (hg : DAGOk g) (hb : ∀ t ∈ cleans, t < n) :
    makeClean g n cleans =
      ((cleans.all fun t => (linearize g t).all (buildNode g)),
        (buildSeqFull g (cleanSeq g cleans) ∅ []).2.2) ∧
    ((∀ i ∈ cleanSeq g cleans, buildNode g i = true) →
      ∀ i ∈ cleanSeq g cleans, (g.builder i).isSome = true →
        i ∈ (makeClean g n cleans).2) := by
  have hgate : cleans.all (fun t => (findCycleTop g n t).isNone) = true := by
    rw [List.all_eq_true]
    intro t ht
    rw [findCycleTop_dag g n t hg (hb t ht)]
    simp
  have hmc : makeClean g n cleans =
      ((buildSeqFull g (cleanSeq g cleans) ∅ []).1,
        (buildSeqFull g (cleanSeq g cleans) ∅ []).2.2) := by
    rw [makeClean, if_pos hgate]
  constructor
  · rw [hmc, buildSeq_result (cleanSeq g cleans) ∅ [] (builtOk_empty g),
      cleanSeq_all]
  · intro hok i hi hbs
    rw [hmc]
    exact buildSeq_trace_mem (cleanSeq g cleans) ∅ [] hok
      (fun j hj => absurd hj (Finset.not_mem_empty j)) i hi hbs

theorem c8_amended_witness :
    DAGOk gC7 ∧ (∀ t ∈ [1, 2], t < 3) ∧
    (makeClean gC7 3 [1, 2] =
      (([1, 2].all fun t => (linearize gC7 t).all (buildNode gC7)),
        (buildSeqFull gC7 (cleanSeq gC7 [1, 2]) ∅ []).2.2) ∧
    ((∀ i ∈ cleanSeq gC7 [1, 2], buildNode gC7 i = true) →
      ∀ i ∈ cleanSeq gC7 [1, 2], (gC7.builder i).isSome = true →
        i ∈ (makeClean gC7 3 [1, 2]).2)) := by
  have hg : DAGOk gC7 := dagOkTable_sound [[], [0], [0, 1]] (by decide)
  exact ⟨hg, by decide, c8_make_clean_amended gC7 3 [1, 2] hg (by decide)⟩

/-! ## Environment and target registration (src/sandworm/target.py 164-211)

Target objects are identified by ids in a pool: `name` maps an object to
its name (Python names are strings; the empty string is modelled as name
0), `tdeps` to the ids of its dependency objects, `tbuilder` to its
builder.  A single Environment's observable state: `targets` is the
insertion-ordered name → object dict (`self._targets`), `cleanTargets`
this environment's clean list, `ancestorCleans` the clean lists of the
`_prev` chain (add_target with clean=True appends to all of them),
`mainTarget` the `_main_target` slot (None until first set), and `envSet`
the ids whose `_env` back-reference has been assigned (Python sets
`target._env = self` only when it is None).  `add_target` recurses into
dependencies with both flags cleared; the recursion is fuel-bounded (in
Python it runs on the machine stack and would not terminate on a cyclic
object graph). -/

structure TPool where
  name : Nat → Nat
  tdeps : Nat → List Nat
  tbuilder : Nat → Option Bool

structure EnvSt where
  targets : List (Nat × Nat)
  cleanTargets : List Nat
  ancestorCleans : List (List Nat)
  mainTarget : Option Nat
  envSet : List Nat
deriving DecidableEq

/-- Python-dict update: replace in place if the key is present, append
otherwise (insertion order preserved, as for `dict.__setitem__`). -/
def dictInsert (m : List (Nat × Nat)) (k v : Nat) : List (Nat × Nat) :=
  if m.any (fun p => p.1 == k) then
    m.map (fun p => if p.1 == k then (k, v) else p)
  else m ++ [(k, v)]

def dictLookup (m : List (Nat × Nat)) (k : Nat) : Option Nat :=
  (m.find? (fun p => p.1 == k)).map Prod.snd

def addClean (st : EnvSt) (o : Nat) : EnvSt :=
  { st with
    cleanTargets := st.cleanTargets ++ [o]
    ancestorCleans := st.ancestorCleans.map fun l => l ++ [o] }

def addTarget (P : TPool) : Nat → EnvSt → Nat → Bool → Bool → EnvSt
  | 0, st, _, _, _ => st
  | fuel + 1, st, o, main, clean =>
    let st₁ :=
      if main then { st with mainTarget := some o }
      else if clean then addClean st o
      else st
    let st₂ :=
      if o ∈ st₁.envSet then st₁ else { st₁ with envSet := st₁.envSet ++ [o] }
    let st₃ := { st₂ with targets := dictInsert st₂.targets (P.name o) o }
    (P.tdeps o).foldl (fun s d => addTarget P fuel s d false false) st₃

/-- `Environment.__init__` (target.py 166-179): empty maps, then
`add_target(Target("", builder=_dummy_builder), main=True)`.  Object 0 of
the pool plays the hidden dummy target; `anc` gives the `_prev` chain's
clean lists. -/
def envInit (P : TPool) (anc : List (List Nat)) : EnvSt :=
  addTarget P 1
    { targets := [], cleanTargets := [], ancestorCleans := anc,
      mainTarget := none, envSet := [] } 0 true false

/-- The `targets` property (target.py 189-190): every registered entry
whose name is non-empty. -/
def envTargets (st : EnvSt) : List (Nat × Nat) :=
  st.targets.filter fun p => p.1 != 0

/-- C10: every Environment is constructed with `main_target` already set:
`__init__` registers the hidden empty-named dummy target (always-True
builder) as main, so `main_target` is `some` of it and it is in the
registry under the empty name; building it succeeds unconditionally (its
builder returns True whatever the build context); and the `targets`
property never contains an empty-named entry, in any state. -/
theorem c10_hidden_main_target (P : TPool) (anc : List (List Nat))
    (hname : P.name 0 = 0) (hdeps : P.tdeps 0 = [])
    (hbuild : P.tbuilder 0 = some true) :
    (envInit P anc).mainTarget = some 0 ∧
    dictLookup (envInit P anc).targets (P.name 0) = some 0 ∧
    (∀ (c e d b : Bool),
      (targetBuild c { builder := P.tbuilder 0, exi := e, depsEmpty := d,
                       built := b }).ret = true) ∧
    (∀ (st : EnvSt) (o : Nat), (0, o) ∉ envTargets st) := by
  refine ⟨?_, ?_, ?_, ?_⟩
  · simp [envInit, addTarget, hdeps]
  · simp [envInit, addTarget, hdeps, dictInsert, dictLookup]
  · intro c e d b
    simp [targetBuild, hbuild]
  · intro st o h
    simp only [envTargets, List.mem_filter] at h
    exact absurd h.2 (by simp)

/-- Concrete pool for the environment witnesses: object ids are their own
names (id 0 is the empty-named dummy), except object 2 which shares name 1
with object 1; no dependencies; every builder returns True. -/
def P9 : TPool :=
  { name := fun o => if o = 2 then 1 else o, tdeps := fun _ => [],
    tbuilder := fun _ => some true }

theorem c10_witness :
    P9.name 0 = 0 ∧ P9.tdeps 0 = [] ∧ P9.tbuilder 0 = some true ∧
    ((envInit P9 [[]]).mainTarget = some 0 ∧
    dictLookup (envInit P9 [[]]).targets (P9.name 0) = some 0 ∧
    (∀ (c e d b : Bool),
      (targetBuild c { builder := P9.tbuilder 0, exi := e, depsEmpty := d,
                       built := b }).ret = true) ∧
    (∀ (st : EnvSt) (o : Nat), (0, o) ∉ envTargets st)) :=
  ⟨rfl, rfl, rfl, c10_hidden_main_target P9 [[]] rfl rfl rfl⟩

theorem keys_unique :
    ∀ {m : List (Nat × Nat)}, (m.map Prod.fst).Nodup →
      ∀ {p q : Nat × Nat}, p ∈ m → q ∈ m → p.1 = q.1 → p = q := by
  intro m
  induction m with
  | nil => intro _ p q hp; exact absurd hp (List.not_mem_nil p)
  | cons a t ih =>
    intro hnd p q hp hq hpq
    simp only [List.map_cons, List.nodup_cons] at hnd
    rcases List.mem_cons.mp hp with hp' | hp' <;>
      rcases List.mem_cons.mp hq with hq' | hq'
    · rw [hp', hq']
    · exfalso
      apply hnd.1
      rw [hp'] at hpq
      rw [hpq]
      exact List.mem_map_of_mem Prod.fst hq'
    · exfalso
      apply hnd.1
      rw [hq'] at hpq
      rw [← hpq]
      exact List.mem_map_of_mem Prod.fst hp'
    · exact ih hnd.2 hp' hq' hpq

theorem dictInsert_self {m : List (Nat × Nat)} {k v : Nat}
    (hnd : (m.map Prod.fst).Nodup) (hlk : dictLookup m k = some v) :
    dictInsert m k v = m := by
  obtain ⟨e, hfind, hv⟩ : ∃ e, m.find? (fun p => p.1 == k) = some e ∧ e.2 = v := by
    rw [dictLookup] at hlk
    cases hf : m.find? (fun p => p.1 == k) with
    | none => rw [hf] at hlk; simp at hlk
    | some e =>
      rw [hf] at hlk
      simp at hlk
      exact ⟨e, rfl, hlk⟩
  have hek : e.1 = k := by
    have := List.find?_some hfind
    simpa using this
  have hemem : e ∈ m := List.mem_of_find?_eq_some hfind
  have hany : m.any (fun p => p.1 == k) = true := by
    rw [List.any_eq_true]
    exact ⟨e, hemem, by simp [hek]⟩
  rw [dictInsert, if_pos hany]
  have hfix : ∀ p ∈ m, (if p.1 == k then (k, v) else p) = p := by
    intro p hp
    by_cases hpk : p.1 = k
    · have hpe : p = e := keys_unique hnd hp hemem (by rw [hpk, hek])
      have hcond : (p.1 == k) = true := by simp [hpk]
      rw [if_pos hcond, hpe, ← hek, ← hv]
    · simp [hpk]
  have hmap : ∀ (l : List (Nat × Nat)),
      (∀ p ∈ l, (if p.1 == k then (k, v) else p) = p) →
      l.map (fun p => if p.1 == k then (k, v) else p) = l := by
    intro l
    induction l with
    | nil => intro _; rfl
    | cons a t iht =>
      intro h
      rw [List.map_cons, h a (List.mem_cons_self a t),
        iht fun p hp => h p (List.mem_cons_of_mem a hp)]
  exact hmap m hfix

def doneB (P : TPool) : Nat → EnvSt → Nat → Bool
  | 0, _, _ => false
  | fuel + 1, st, o =>
    (dictLookup st.targets (P.name o) == some o) && st.envSet.contains o &&
      (P.tdeps o).all fun d => doneB P fuel st d

/-- C9 (amended): re-adding is a no-op only in the fully-registered,
flag-free case: if the target and every object transitively reachable
through its dependencies are already registered in the Environment under
their own names (mapping to the same objects) with their `_env`
back-references set, then `add_target` with both flags False leaves the
whole observable state unchanged.  With `clean=True` the target is
appended to every clean list again, with `main=True` the main-target slot
is redirected, and registering a different object under an existing name
replaces the registry entry (see the counterexample). -/
theorem c9_readd_noop (P : TPool) (st : EnvSt)
    (hnd : (st.targets.map Prod.fst).Nodup) :
    ∀ (fuel o : Nat), doneB P fuel st o = true →
      addTarget P fuel st o false false = st := by
  intro fuel
  induction fuel with
  | zero =>
    intro o hdone
    exact absurd hdone (by rw [doneB]; simp)
  | succ fuel ih =>
    intro o hdone
    rw [doneB, Bool.and_eq_true, Bool.and_eq_true] at hdone
    obtain ⟨⟨hlk, henv⟩, hall⟩ := hdone
    rw [beq_iff_eq] at hlk
    have henv2 : o ∈ st.envSet := List.elem_iff.mp henv
    rw [List.all_eq_true] at hall
    have hstep : addTarget P (fuel + 1) st o false false =
        (P.tdeps o).foldl (fun s d => addTarget P fuel s d false false)
          { st with targets := dictInsert st.targets (P.name o) o } := by
      simp only [addTarget, Bool.false_eq_true, if_false, if_pos henv2]
    rw [hstep, dictInsert_self hnd hlk]
    have hfold : ∀ (l : List Nat), (∀ d ∈ l, doneB P fuel st d = true) →
        l.foldl (fun s d => addTarget P fuel s d false false) st = st := by
      intro l
      induction l with
      | nil => intro _; rfl
      | cons d t iht =>
        intro hl
        rw [List.foldl_cons, ih d (hl d (List.mem_cons_self d t))]
        exact iht fun d2 hd2 => hl d2 (List.mem_cons_of_mem d hd2)
    exact hfold (P.tdeps o) fun d hd => hall d hd

/-- Environment state after init and one clean registration of object 1. -/
def st9a : EnvSt := addTarget P9 2 (envInit P9 [[]]) 1 false true

/-- C9 counterexample: re-adding an already-registered name is NOT a
no-op.  `add_target` performs no already-registered check, so on `st9a`
(object 1, name 1, registered as a clean target): re-adding with
clean=True appends it to this environment's clean list and every
ancestor's again; re-adding with main=True redirects the main-target slot
away from the hidden dummy; and re-adding name 1 via the distinct object
2 replaces the registry entry. -/
theorem c9_counterexample :
    (addTarget P9 2 st9a 1 false true).cleanTargets = [1, 1] ∧
    (addTarget P9 2 st9a 1 false true).ancestorCleans = [[1, 1]] ∧
    st9a.cleanTargets = [1] ∧
    st9a.mainTarget = some 0 ∧
    (addTarget P9 2 st9a 1 true false).mainTarget = some 1 ∧
    dictLookup st9a.targets 1 = some 1 ∧
    dictLookup (addTarget P9 2 st9a 2 false false).targets 1 = some 2 := by
  decide

theorem c9_readd_noop_witness :
    (st9a.targets.map Prod.fst).Nodup ∧ doneB P9 2 st9a 1 = true ∧
    addTarget P9 2 st9a 1 false false = st9a :=
  ⟨by decide, by decide, c9_readd_noop P9 st9a (by decide) 2 1 (by decide)⟩
